import Mathlib

/-! PGMap (src/mon/PGMap.h): a shallow embedding

The header `src/mon/PGMap.h` declares the placement-group map of the monitor and its
`Incremental` builder.  The inline member functions of the header are embedded below as
Lean functions on explicit state records; member functions that are only declared in the
header are taken as parameters or modelled from the specification, and say so.

Conventions.
* `std::map`, `ceph::unordered_map` and `std::set` are keyed containers: a list of entries
  with pairwise distinct keys (`cmap`, `cset`).  Iteration order plays no part in the
  functions embedded here.
* `epoch_t` (32-bit unsigned), `version_t` (64-bit unsigned) and `size_t` are `Nat`;
  no function embedded here does arithmetic on them.
* `assert(c)` aborts the program when `c` is false: a function with an assertion returns
  `Option`, `none` standing for the abort.
-/

namespace Ceph

/-! ## Keyed containers -/

/-- The value stored under key `k`, as `find(k)` followed by a test against `end()`. -/
def lfind {K V : Type} [DecidableEq K] (k : K) : List (K × V) → Option V
  | [] => none
  | e :: t => if e.1 = k then some e.2 else lfind k t

/-- Store `v` under `k`, as `m[k] = v`: overwrite the entry when there is one, add one otherwise. -/
def lassign {K V : Type} [DecidableEq K] (k : K) (v : V) : List (K × V) → List (K × V)
  | [] => [(k, v)]
  | e :: t => if e.1 = k then (k, v) :: t else e :: lassign k v t

/-- Drop the entry of `k`, as `erase(k)`. -/
def lerase {K V : Type} [DecidableEq K] (k : K) : List (K × V) → List (K × V)
  | [] => []
  | e :: t => if e.1 = k then lerase k t else e :: lerase k t

/-- The keys of a list of entries. -/
def lkeys {K V : Type} (l : List (K × V)) : List K := l.map Prod.fst

/-- A map container: entries with pairwise distinct keys. -/
structure cmap (K V : Type) where
  entries : List (K × V)
  nodup : (lkeys entries).Nodup

/-- A set container: pairwise distinct elements. -/
structure cset (K : Type) where
  elems : List K
  nodup : elems.Nodup

theorem mem_lkeys_lassign {K V : Type} [DecidableEq K] (k : K) (v : V) (l : List (K × V))
    (x : K) : x ∈ lkeys (lassign k v l) ↔ x = k ∨ x ∈ lkeys l := by
  induction l with
  | nil => simp [lassign, lkeys]
  | cons e t ih =>
    unfold lassign
    by_cases h : e.1 = k
    · simp only [h, if_true, lkeys, List.map_cons, List.mem_cons]
      constructor
      · rintro (r | r)
        · exact Or.inl r
        · exact Or.inr (Or.inr r)
      · rintro (r | r | r)
        · exact Or.inl r
        · exact Or.inl r
        · exact Or.inr r
    · simp only [h, if_false, lkeys, List.map_cons, List.mem_cons]
      have ih2 : x ∈ List.map Prod.fst (lassign k v t) ↔ x = k ∨ x ∈ List.map Prod.fst t := ih
      rw [ih2]
      tauto

theorem nodup_lassign {K V : Type} [DecidableEq K] (k : K) (v : V) (l : List (K × V))
    (h : (lkeys l).Nodup) : (lkeys (lassign k v l)).Nodup := by
  induction l with
  | nil => simp [lassign, lkeys]
  | cons e t ih =>
    have ht : (lkeys t).Nodup := (List.nodup_cons.mp h).2
    have hn : e.1 ∉ lkeys t := (List.nodup_cons.mp h).1
    unfold lassign
    by_cases hk : e.1 = k
    · simp only [hk, if_true]
      exact List.nodup_cons.mpr ⟨hk ▸ hn, ht⟩
    · simp only [hk, if_false]
      refine List.nodup_cons.mpr ⟨?_, ih ht⟩
      intro hm
      rcases (mem_lkeys_lassign k v t e.1).mp hm with r | r
      · exact hk r
      · exact hn r

theorem mem_lkeys_lerase {K V : Type} [DecidableEq K] (k : K) (l : List (K × V))
    (x : K) : x ∈ lkeys (lerase k l) ↔ x ≠ k ∧ x ∈ lkeys l := by
  induction l with
  | nil => simp [lerase, lkeys]
  | cons e t ih =>
    unfold lerase
    have ih2 : x ∈ List.map Prod.fst (lerase k t) ↔ x ≠ k ∧ x ∈ List.map Prod.fst t := ih
    by_cases h : e.1 = k
    · simp only [h, if_true, lkeys, List.map_cons, List.mem_cons]
      rw [ih2]
      constructor
      · rintro ⟨a, b⟩
        exact ⟨a, Or.inr b⟩
      · rintro ⟨a, b | b⟩
        · exact absurd b a
        · exact ⟨a, b⟩
    · simp only [h, if_false, lkeys, List.map_cons, List.mem_cons]
      rw [ih2]
      constructor
      · rintro (r | ⟨a, b⟩)
        · exact ⟨fun c => h (r ▸ c), Or.inl r⟩
        · exact ⟨a, Or.inr b⟩
      · rintro ⟨a, b | b⟩
        · exact Or.inl b
        · exact Or.inr ⟨a, b⟩

theorem nodup_lerase {K V : Type} [DecidableEq K] (k : K) (l : List (K × V))
    (h : (lkeys l).Nodup) : (lkeys (lerase k l)).Nodup := by
  induction l with
  | nil => simp [lerase, lkeys]
  | cons e t ih =>
    have ht : (lkeys t).Nodup := (List.nodup_cons.mp h).2
    have hn : e.1 ∉ lkeys t := (List.nodup_cons.mp h).1
    unfold lerase
    by_cases hk : e.1 = k
    · simp only [hk, if_true]
      exact ih ht
    · simp only [hk, if_false]
      refine List.nodup_cons.mpr ⟨?_, ih ht⟩
      intro hm
      exact hn ((mem_lkeys_lerase k t e.1).mp hm).2

namespace cmap

variable {K V : Type}

instance [DecidableEq K] [DecidableEq V] : DecidableEq (cmap K V) := fun a b =>
  decidable_of_iff (a.entries = b.entries) (by cases a; cases b; simp)

/-- The empty container. -/
def empty : cmap K V := ⟨[], List.nodup_nil⟩

/-- Lookup: `find(k)`, `none` for `end()`. -/
def find [DecidableEq K] (m : cmap K V) (k : K) : Option V := lfind k m.entries

/-- Assignment through `operator[]`: `m[k] = v`. -/
def assign [DecidableEq K] (m : cmap K V) (k : K) (v : V) : cmap K V :=
  ⟨lassign k v m.entries, nodup_lassign k v m.entries m.nodup⟩

/-- Removal by key: `erase(k)`. -/
def erase [DecidableEq K] (m : cmap K V) (k : K) : cmap K V :=
  ⟨lerase k m.entries, nodup_lerase k m.entries m.nodup⟩

/-- Number of entries: `size()`. -/
def size (m : cmap K V) : Nat := m.entries.length

/-- The keys of the container. -/
def keys (m : cmap K V) : List K := lkeys m.entries

end cmap

namespace cset

variable {K : Type}

instance [DecidableEq K] : DecidableEq (cset K) := fun a b =>
  decidable_of_iff (a.elems = b.elems) (by cases a; cases b; simp)

/-- The empty set. -/
def empty : cset K := ⟨[], List.nodup_nil⟩

/-- Membership test: `count(k) != 0`. -/
def contains [DecidableEq K] (s : cset K) (k : K) : Bool := decide (k ∈ s.elems)

/-- Insertion: `insert(k)`, without effect when `k` is a member already. -/
def insert [DecidableEq K] (s : cset K) (k : K) : cset K :=
  if h : k ∈ s.elems then s
  else ⟨s.elems ++ [k], by
    rw [List.nodup_append]
    refine ⟨s.nodup, List.nodup_singleton k, ?_⟩
    intro a ha hb
    rw [List.mem_singleton] at hb
    exact h (hb ▸ ha)⟩

/-- Size of the set: `size()`. -/
def size (s : cset K) : Nat := s.elems.length

end cset

/-! ## Value types declared outside the header -/

/-- An `epoch_t`: an osdmap epoch, an unsigned 32-bit number. -/
abbrev epoch_t := Nat

/-- A `version_t`: a map version, an unsigned 64-bit number. -/
abbrev version_t := Nat

/-- Modelled from the spec: `utime_t`, declared in include/utime.h and not part of the
sources at hand.  The specification calls it a timestamp; it is a number of clock ticks. -/
abbrev utime_t := Nat

/-- A `float`: the bit pattern of an IEEE-754 binary32 number (sign bit 31, exponent bits
30..23, fraction bits 22..0).  Only the comparison `==` is used by the header. -/
abbrev float := Nat

/-- Whether the bit pattern is a NaN: exponent all ones and a nonzero fraction. -/
def float_is_nan (f : float) : Bool := (f / 2 ^ 23) % 2 ^ 8 == 255 && f % 2 ^ 23 != 0

/-- Whether the bit pattern is +0 or -0. -/
def float_is_zero (f : float) : Bool := f % 2 ^ 31 == 0

/-- The C++ comparison `a == b` on `float`: false as soon as one side is a NaN, true on
the two zeros, and equality of the bit patterns otherwise. -/
def float_eq (a b : float) : Bool :=
  !float_is_nan a && !float_is_nan b &&
    (a % 2 ^ 32 == b % 2 ^ 32 || (float_is_zero a && float_is_zero b))

/-- Conversion of an `int64_t` to `int` (32 bits, two's complement wrap-around), as it
happens when an `int64_t` pool id is passed where the key type of a container is `int`. -/
def to_int (x : Int) : Int := (x + 2 ^ 31) % 2 ^ 32 - 2 ^ 31

/-- Conversion of an `int64_t` to `uint64_t` (reduction modulo 2^64), as it happens when
an `int64_t` pool id is passed where the key type of a container is `uint64_t`. -/
def to_uint64 (x : Int) : Nat := (x % 2 ^ 64).toNat

/-- Modelled from the spec: `pg_t`, declared in osd/osd_types.h and not part of the
sources at hand.  Section 3: a placement-group identifier is a pool id and a shard/seed. -/
structure pg_t where
  pool : Int
  seed : Nat
  deriving DecidableEq, Repr

/-- Modelled from the spec: `pg_stat_t`, declared in osd/osd_types.h and not part of the
sources at hand.  Section 3 (PgRecord): state bitmask, acting/up node-id sets, object
count, bytes used, last-epoch-clean, last-state-change timestamp, reported-by-epoch. -/
structure pg_stat_t where
  state : Nat
  up : List Int
  acting : List Int
  num_objects : Int
  num_bytes : Int
  last_epoch_clean : epoch_t
  last_change : utime_t
  reported_epoch : epoch_t
  deriving DecidableEq, Repr

/-- Modelled from the spec: `osd_stat_t`, declared in osd/osd_types.h and not part of the
sources at hand.  Section 3 (NodeRecord): capacity and used bytes and the op-queue-age
histogram; the last-reported epoch of a node is kept apart, in `osd_epochs`.  The header
itself uses the member `op_queue_age_hist` and its `clear()`. -/
structure osd_stat_t where
  kb : Int
  kb_used : Int
  op_queue_age_hist : List Nat
  deriving DecidableEq, Repr

/-- The default-constructed `osd_stat_t()`: every counter zero, the histogram empty. -/
def osd_stat_t.default : osd_stat_t := ⟨0, 0, []⟩

/-- The effect of `op_queue_age_hist.clear()` on a record. -/
def osd_stat_t.clear_hist (s : osd_stat_t) : osd_stat_t := { s with op_queue_age_hist := [] }

/-- Modelled from the spec: `pool_stat_t`, declared in osd/osd_types.h and not part of the
sources at hand.  Section 3 (PoolStatSum): an additive aggregate over the PgRecords of one
pool: object count, bytes, and per-state PG counts (one PG counter here).  The counters
are signed 64-bit in the code; they are integers here, sums are field-wise and overflow
is left out. -/
structure pool_stat_t where
  num_objects : Int
  num_bytes : Int
  num_pg : Int
  deriving DecidableEq, Repr

namespace pool_stat_t

/-- The default-constructed `pool_stat_t()`: every counter zero. -/
def default : pool_stat_t := ⟨0, 0, 0⟩

/-- Field-wise sum. -/
def add (a b : pool_stat_t) : pool_stat_t :=
  ⟨a.num_objects + b.num_objects, a.num_bytes + b.num_bytes, a.num_pg + b.num_pg⟩

/-- Field-wise difference. -/
def sub (a b : pool_stat_t) : pool_stat_t :=
  ⟨a.num_objects - b.num_objects, a.num_bytes - b.num_bytes, a.num_pg - b.num_pg⟩

end pool_stat_t

/-- Field-wise sum of the values of a list of entries. -/
def lsum {K : Type} : List (K × pool_stat_t) → pool_stat_t
  | [] => pool_stat_t.default
  | e :: t => pool_stat_t.add e.2 (lsum t)

/-- Field-wise sum of all per-pool sums of a container. -/
def pool_sums_total {K : Type} (m : cmap K pool_stat_t) : pool_stat_t := lsum m.entries

/-! ## The map: `class PGMap` -/

/-- The data members of `class PGMap` (PGMap.h lines 36-47, 117-126, 133-149, 184-185). -/
structure PGMap where
  version : version_t
  last_osdmap_epoch : epoch_t
  last_pg_scan : epoch_t
  pg_stat : cmap pg_t pg_stat_t
  osd_stat : cmap Int osd_stat_t
  full_osds : cset Int
  nearfull_osds : cset Int
  full_ratio : float
  nearfull_ratio : float
  osd_epochs : cmap Int epoch_t
  num_pg_by_state : cmap Int Int
  num_pg : Int
  num_osd : Int
  pg_pool_sum : cmap Int pool_stat_t
  pg_sum : pool_stat_t
  osd_sum : osd_stat_t
  min_last_epoch_clean : epoch_t
  blocked_by_sum : cmap Int Int
  pg_by_osd : cmap Int (cset pg_t)
  stamp : utime_t
  per_pool_sum_deltas : cmap Nat (List (pool_stat_t × utime_t))
  per_pool_sum_deltas_stamps : cmap Nat utime_t
  per_pool_sum_delta : cmap Nat (pool_stat_t × utime_t)
  pg_sum_deltas : List (pool_stat_t × utime_t)
  pg_sum_delta : pool_stat_t
  stamp_delta : utime_t
  creating_pgs : cset pg_t
  creating_pgs_by_osd : cmap Int (cset pg_t)
  deriving DecidableEq

namespace PGMap

/-- The constructor `PGMap()` (lines 194-201): the numeric members named in the
initialiser list are zero, every container is empty. -/
def init : PGMap where
  version := 0
  last_osdmap_epoch := 0
  last_pg_scan := 0
  pg_stat := cmap.empty
  osd_stat := cmap.empty
  full_osds := cset.empty
  nearfull_osds := cset.empty
  full_ratio := 0
  nearfull_ratio := 0
  osd_epochs := cmap.empty
  num_pg_by_state := cmap.empty
  num_pg := 0
  num_osd := 0
  pg_pool_sum := cmap.empty
  pg_sum := pool_stat_t.default
  osd_sum := osd_stat_t.default
  min_last_epoch_clean := 0
  blocked_by_sum := cmap.empty
  pg_by_osd := cmap.empty
  stamp := 0
  per_pool_sum_deltas := cmap.empty
  per_pool_sum_deltas_stamps := cmap.empty
  per_pool_sum_delta := cmap.empty
  pg_sum_deltas := []
  pg_sum_delta := pool_stat_t.default
  stamp_delta := 0
  creating_pgs := cset.empty
  creating_pgs_by_osd := cmap.empty

/-- The member `deleted_pool(int64_t pool)` (lines 158-163).  `pg_pool_sum` is keyed by
`int`, the three delta containers by `uint64_t`: the argument is converted to the key type
of each container. -/
def deleted_pool (m : PGMap) (pool : Int) : PGMap :=
  { m with
    pg_pool_sum := m.pg_pool_sum.erase (to_int pool)
    per_pool_sum_deltas := m.per_pool_sum_deltas.erase (to_uint64 pool)
    per_pool_sum_deltas_stamps := m.per_pool_sum_deltas_stamps.erase (to_uint64 pool)
    per_pool_sum_delta := m.per_pool_sum_delta.erase (to_uint64 pool) }

/-- The member `set_full_ratios(float full, float nearfull)` (lines 203-209).
`redo_full_sets` is declared at line 258 and its body is not in the header: it is a
parameter, called on the map that already holds the new ratios. -/
def set_full_ratios (redo_full_sets : PGMap → PGMap) (m : PGMap) (full nearfull : float) :
    PGMap :=
  if float_eq m.full_ratio full && float_eq m.nearfull_ratio nearfull then m
  else redo_full_sets { m with full_ratio := full, nearfull_ratio := nearfull }

/-- Modelled from the spec: `redo_full_sets`, declared at line 258, body not in the
header.  Section 4.5: a full re-scan of the node records; a node is full if
used/capacity >= full_ratio, nearfull else if used/capacity >= nearfull_ratio, else
neither.  The comparison of the quotient with a ratio is floating-point arithmetic and
is the parameter `ratio_ge`. -/
def redo_full_sets (ratio_ge : osd_stat_t → float → Bool) (m : PGMap) : PGMap :=
  { m with
    full_osds :=
      ⟨lkeys (m.osd_stat.entries.filter (fun e => ratio_ge e.2 m.full_ratio)),
        ((List.filter_sublist m.osd_stat.entries).map Prod.fst).nodup m.osd_stat.nodup⟩
    nearfull_osds :=
      ⟨lkeys (m.osd_stat.entries.filter
          (fun e => !ratio_ge e.2 m.full_ratio && ratio_ge e.2 m.nearfull_ratio)),
        ((List.filter_sublist m.osd_stat.entries).map Prod.fst).nodup m.osd_stat.nodup⟩ }

/-- The member `get_version()` (lines 211-213). -/
def get_version (m : PGMap) : version_t := m.version

/-- The member `set_version(version_t v)` (lines 214-216). -/
def set_version (m : PGMap) (v : version_t) : PGMap := { m with version := v }

/-- The member `get_last_osdmap_epoch()` (lines 217-219). -/
def get_last_osdmap_epoch (m : PGMap) : epoch_t := m.last_osdmap_epoch

/-- The member `set_last_osdmap_epoch(epoch_t e)` (lines 220-222). -/
def set_last_osdmap_epoch (m : PGMap) (e : epoch_t) : PGMap := { m with last_osdmap_epoch := e }

/-- The member `get_last_pg_scan()` (lines 223-225). -/
def get_last_pg_scan (m : PGMap) : epoch_t := m.last_pg_scan

/-- The member `set_last_pg_scan(epoch_t e)` (lines 226-228). -/
def set_last_pg_scan (m : PGMap) (e : epoch_t) : PGMap := { m with last_pg_scan := e }

/-- The member `get_stamp()` (lines 229-231). -/
def get_stamp (m : PGMap) : utime_t := m.stamp

/-- The member `set_stamp(utime_t s)` (lines 232-234). -/
def set_stamp (m : PGMap) (s : utime_t) : PGMap := { m with stamp := s }

/-- The const member `get_num_pg_by_osd(int osd)` (lines 236-242): the result and the map
after the call. -/
def get_num_pg_by_osd (m : PGMap) (osd : Int) : Nat × PGMap :=
  match m.pg_by_osd.find osd with
  | none => (0, m)
  | some s => (s.size, m)

/-- The const member `get_pg_pool_sum_stat(int64_t pool)` (lines 244-250): the result and
the map after the call.  The `int64_t` argument is converted to the key type `int`. -/
def get_pg_pool_sum_stat (m : PGMap) (pool : Int) : pool_stat_t × PGMap :=
  match m.pg_pool_sum.find (to_int pool) with
  | some s => (s, m)
  | none => (pool_stat_t.default, m)

/-- The const member `get_min_last_epoch_clean()` (lines 341-345): the result and the map
after the call, whose `mutable` cache member the call may write.
`calc_min_last_epoch_clean` is declared at line 180 and its body is not in the header:
it is a parameter. -/
def get_min_last_epoch_clean (calc_min_last_epoch_clean : PGMap → epoch_t) (m : PGMap) :
    epoch_t × PGMap :=
  if m.min_last_epoch_clean = 0 then
    let m1 := { m with min_last_epoch_clean := calc_min_last_epoch_clean m }
    (m1.min_last_epoch_clean, m1)
  else (m.min_last_epoch_clean, m)

end PGMap

/-! ## The builder: `class PGMap::Incremental` -/

/-- The data members of `class PGMap::Incremental` (lines 51-65), the private ones
(`osd_stat_updates`, `osd_stat_rm`, `osd_epochs`) included. -/
structure PGMap.Incremental where
  version : version_t
  pg_stat_updates : cmap pg_t pg_stat_t
  osdmap_epoch : epoch_t
  pg_scan : epoch_t
  pg_remove : cset pg_t
  full_ratio : float
  nearfull_ratio : float
  stamp : utime_t
  osd_stat_updates : cmap Int osd_stat_t
  osd_stat_rm : cset Int
  osd_epochs : cmap Int epoch_t
  deriving DecidableEq

namespace PGMap.Incremental

/-- The constructor `Incremental()` (lines 111-112): a freshly constructed builder. -/
def init : PGMap.Incremental where
  version := 0
  pg_stat_updates := cmap.empty
  osdmap_epoch := 0
  pg_scan := 0
  pg_remove := cset.empty
  full_ratio := 0
  nearfull_ratio := 0
  stamp := 0
  osd_stat_updates := cmap.empty
  osd_stat_rm := cset.empty
  osd_epochs := cmap.empty

/-- The accessor `get_osd_stat_updates()` (lines 68-70). -/
def get_osd_stat_updates (inc : PGMap.Incremental) : cmap Int osd_stat_t := inc.osd_stat_updates

/-- The accessor `get_osd_stat_rm()` (lines 71-73). -/
def get_osd_stat_rm (inc : PGMap.Incremental) : cset Int := inc.osd_stat_rm

/-- The accessor `get_osd_epochs()` (lines 74-76). -/
def get_osd_epochs (inc : PGMap.Incremental) : cmap Int epoch_t := inc.osd_epochs

/-- The member `update_stat(osd, epoch, stat)` (lines 78-82): the two assignments, then
the assertion on the two sizes; `none` when the assertion fails. -/
def update_stat (inc : PGMap.Incremental) (osd : Int) (epoch : epoch_t) (stat : osd_stat_t) :
    Option PGMap.Incremental :=
  let inc1 := { inc with osd_stat_updates := inc.osd_stat_updates.assign osd stat }
  let inc2 := { inc1 with osd_epochs := inc1.osd_epochs.assign osd epoch }
  if inc2.osd_epochs.size = inc2.osd_stat_updates.size then some inc2 else none

/-- The member `stat_osd_out(osd)` (lines 83-86). -/
def stat_osd_out (inc : PGMap.Incremental) (osd : Int) : PGMap.Incremental :=
  { inc with osd_stat_updates := inc.osd_stat_updates.assign osd osd_stat_t.default }

/-- The member `stat_osd_down_up(osd, pg_map)` (lines 87-100): the builder and the map
after the call (the map is passed by non-const reference). -/
def stat_osd_down_up (inc : PGMap.Incremental) (osd : Int) (pg_map : PGMap) :
    PGMap.Incremental × PGMap :=
  match inc.osd_stat_updates.find osd with
  | some u =>
    ({ inc with osd_stat_updates := inc.osd_stat_updates.assign osd u.clear_hist }, pg_map)
  | none =>
    match pg_map.osd_stat.find osd with
    | some r =>
      let inc1 := { inc with osd_stat_updates := inc.osd_stat_updates.assign osd r }
      ({ inc1 with osd_stat_updates := inc1.osd_stat_updates.assign osd r.clear_hist }, pg_map)
    | none => (inc, pg_map)

/-- The member `rm_stat(osd)` (lines 101-105). -/
def rm_stat (inc : PGMap.Incremental) (osd : Int) : PGMap.Incremental :=
  { inc with
    osd_stat_rm := inc.osd_stat_rm.insert osd
    osd_epochs := inc.osd_epochs.erase osd
    osd_stat_updates := inc.osd_stat_updates.erase osd }

/-- The two pending maps have the same set of osd ids. -/
def same_keys (inc : PGMap.Incremental) : Prop :=
  ∀ k : Int, k ∈ inc.osd_epochs.keys ↔ k ∈ inc.osd_stat_updates.keys

/-- No osd id is a key of the upsert map and a member of the removal set at once. -/
def upsert_rm_disjoint (inc : PGMap.Incremental) : Prop :=
  ∀ k : Int, ¬ (k ∈ inc.osd_stat_updates.keys ∧ k ∈ inc.osd_stat_rm.elems)

end PGMap.Incremental

/-- One call of a builder operation of `PGMap::Incremental`, with its arguments. -/
inductive BuilderOp where
  | update_stat (osd : Int) (epoch : epoch_t) (stat : osd_stat_t)
  | stat_osd_out (osd : Int)
  | stat_osd_down_up (osd : Int) (pg_map : PGMap)
  | rm_stat (osd : Int)

namespace BuilderOp

/-- Run one call on a builder; `none` when the assertion of `update_stat` fails. -/
def apply (inc : PGMap.Incremental) : BuilderOp → Option PGMap.Incremental
  | update_stat osd epoch stat => inc.update_stat osd epoch stat
  | stat_osd_out osd => some (inc.stat_osd_out osd)
  | stat_osd_down_up osd pg_map => some (inc.stat_osd_down_up osd pg_map).1
  | rm_stat osd => some (inc.rm_stat osd)

/-- The osd a call may add to the upsert map `osd_stat_updates`, if any. -/
def upserts : BuilderOp → Option Int
  | update_stat osd _ _ => some osd
  | stat_osd_out osd => some osd
  | stat_osd_down_up osd _ => some osd
  | rm_stat _ => none

/-- The osd a call adds to the removal set `osd_stat_rm`, if any. -/
def removes : BuilderOp → Option Int
  | rm_stat osd => some osd
  | _ => none

end BuilderOp

/-- Run a sequence of calls, first to last; `none` as soon as an assertion fails. -/
def run_ops : List BuilderOp → PGMap.Incremental → Option PGMap.Incremental
  | [], inc => some inc
  | op :: rest, inc =>
    match op.apply inc with
    | some inc1 => run_ops rest inc1
    | none => none

/-- No call of the sequence names, as the osd of an upsert, an osd that an earlier
`rm_stat` of the sequence removed. -/
def no_upsert_after_rm : List BuilderOp → Prop
  | [] => True
  | op :: rest =>
    (∀ o, op.removes = some o → ∀ op2 ∈ rest, op2.upserts ≠ some o) ∧ no_upsert_after_rm rest

/-! ## Stuck conditions, header operations and members without a body -/

namespace PGMap

/-- The constant `STUCK_INACTIVE = (1<<0)` (line 188). -/
def STUCK_INACTIVE : Nat := 1 <<< 0

/-- The constant `STUCK_UNCLEAN = (1<<1)` (line 189). -/
def STUCK_UNCLEAN : Nat := 1 <<< 1

/-- The constant `STUCK_UNDERSIZED = (1<<2)` (line 190). -/
def STUCK_UNDERSIZED : Nat := 1 <<< 2

/-- The constant `STUCK_DEGRADED = (1<<3)` (line 191). -/
def STUCK_DEGRADED : Nat := 1 <<< 3

/-- The constant `STUCK_STALE = (1<<4)` (line 192). -/
def STUCK_STALE : Nat := 1 <<< 4

/-- Modelled from the spec: `calc_min_last_epoch_clean`, declared at line 180, body not in
the header.  Section 4.3a: the minimum, over all PgRecords, of last-epoch-clean,
restricted to PGs that are not in the creating state (here: not in `creating_pgs`);
zero when there is no eligible PG. -/
def calc_min_last_epoch_clean (m : PGMap) : epoch_t :=
  match (m.pg_stat.entries.filter (fun e => !m.creating_pgs.contains e.1)).map
      (fun e => e.2.last_epoch_clean) with
  | [] => 0
  | x :: xs => xs.foldl min x

/-- Modelled from the spec: `get_stuck_stats(types, cutoff, stuck_pgs)`, declared at lines
285-286, body not in the header.  Section 4.6: a pure query; given a bitmask of conditions
and a cutoff timestamp it returns every PgRecord whose last-state-change is at or before
the cutoff and whose state matches at least one requested bit.  The result is the content
of `stuck_pgs` after the call, together with the map after the call. -/
def get_stuck_stats (m : PGMap) (types : Nat) (cutoff : utime_t) :
    cmap pg_t pg_stat_t × PGMap :=
  (⟨m.pg_stat.entries.filter
      (fun e => decide (e.2.last_change ≤ cutoff) && (e.2.state &&& types != 0)),
    ((List.filter_sublist m.pg_stat.entries).map Prod.fst).nodup m.pg_stat.nodup⟩, m)

end PGMap

/-- The five stuck conditions named by the constants `STUCK_*`. -/
inductive StuckKind where
  | inactive
  | unclean
  | undersized
  | degraded
  | stale
  deriving DecidableEq, Repr

/-- The constant of a stuck condition. -/
def StuckKind.bit : StuckKind → Nat
  | .inactive => PGMap.STUCK_INACTIVE
  | .unclean => PGMap.STUCK_UNCLEAN
  | .undersized => PGMap.STUCK_UNDERSIZED
  | .degraded => PGMap.STUCK_DEGRADED
  | .stale => PGMap.STUCK_STALE

/-- The mask of a subset of the stuck conditions: the bitwise OR of the constants of its
members. -/
def stuck_mask (s : StuckKind → Bool) : Nat :=
  (if s .inactive then PGMap.STUCK_INACTIVE else 0) |||
    (if s .unclean then PGMap.STUCK_UNCLEAN else 0) |||
    (if s .undersized then PGMap.STUCK_UNDERSIZED else 0) |||
    (if s .degraded then PGMap.STUCK_DEGRADED else 0) |||
    (if s .stale then PGMap.STUCK_STALE else 0)

/-- One call of a member of `PGMap` whose body is given in the header and which may write
a member of the map, with its arguments. -/
inductive MapOp where
  | set_version (v : version_t)
  | set_last_osdmap_epoch (e : epoch_t)
  | set_last_pg_scan (e : epoch_t)
  | set_stamp (s : utime_t)
  | set_full_ratios (full nearfull : float)
  | deleted_pool (pool : Int)
  | get_min_last_epoch_clean

/-- Run one call on a map.  `redo_full_sets` is the re-scan of section 4.5 with the
floating-point comparison `ratio_ge`; `calc_min_last_epoch_clean` is the parameter
`calc_mlec`. -/
def MapOp.apply (ratio_ge : osd_stat_t → float → Bool) (calc_mlec : PGMap → epoch_t)
    (m : PGMap) : MapOp → PGMap
  | .set_version v => m.set_version v
  | .set_last_osdmap_epoch e => m.set_last_osdmap_epoch e
  | .set_last_pg_scan e => m.set_last_pg_scan e
  | .set_stamp s => m.set_stamp s
  | .set_full_ratios full nearfull =>
    m.set_full_ratios (PGMap.redo_full_sets ratio_ge) full nearfull
  | .deleted_pool pool => m.deleted_pool pool
  | .get_min_last_epoch_clean => (m.get_min_last_epoch_clean calc_mlec).2

/-- The outcome of applying an Incremental Update (section 4.3 and section 7). -/
inductive apply_status where
  | applied
  | VersionConflict
  deriving DecidableEq, Repr

/-- Modelled from the spec: `apply_incremental(cct, inc)`, declared at line 257, body not
in the header.  Section 4.3, given the map at version `v` and the update `inc`:
step 1 rejects `inc` with `VersionConflict` if it was not built against version `v`, and
by section 5 a rejected update leaves the map as it is; steps 2 to 5 apply the removals,
upserts, ratio change, epoch and timestamp and feed the delta tracker; step 6 increments
the version to `v+1`; step 7 invalidates the cached `min_last_epoch_clean`.
The version an update was built against is read off the update by `built_against`; the
members behind steps 2 to 5 (`update_pg`, `remove_pg`, `update_osd`, `remove_osd`,
`update_global_delta`, `update_pool_deltas`) have no body in the header and are the
parameter `apply_changes`. -/
def PGMap.apply_incremental (built_against : PGMap.Incremental → version_t)
    (apply_changes : PGMap → PGMap.Incremental → PGMap) (m : PGMap)
    (inc : PGMap.Incremental) : apply_status × PGMap :=
  if built_against inc = m.version then
    let s5 := apply_changes m inc
    let s6 := { s5 with version := m.version + 1 }
    (apply_status.applied, { s6 with min_last_epoch_clean := 0 })
  else (apply_status.VersionConflict, m)

/-- Every call of the sequence is an `update_stat` or a `rm_stat`. -/
def only_update_rm : List BuilderOp → Prop
  | [] => True
  | BuilderOp.update_stat _ _ _ :: rest => only_update_rm rest
  | BuilderOp.rm_stat _ :: rest => only_update_rm rest
  | _ :: _ => False

/-- The effect of one call on the report on record for osd `o`: an `update_stat` of `o`
puts its stat and epoch on record, a `rm_stat` of `o` takes the record away, any other
call leaves it. -/
def report_step (o : Int) (acc : Option (osd_stat_t × epoch_t)) :
    BuilderOp → Option (osd_stat_t × epoch_t)
  | BuilderOp.update_stat osd epoch stat => if osd = o then some (stat, epoch) else acc
  | BuilderOp.rm_stat osd => if osd = o then none else acc
  | _ => acc

/-- The stat and epoch of the last `update_stat(o, e, s)` of the sequence that no
`rm_stat(o)` follows, if there is one. -/
def last_report (o : Int) (ops : List BuilderOp) : Option (osd_stat_t × epoch_t) :=
  ops.foldl (report_step o) none

/-! ## Sample states -/

/-- A map with two pools: pool 1 with sum (3, 100, 1), pool 2 with sum (4, 200, 2), the
global sum (7, 300, 3) being their field-wise sum, delta history for pool 1, and two PGs
mapped to osd 4. -/
def two_pool_map : PGMap :=
  { PGMap.init with
    pg_pool_sum := (PGMap.init.pg_pool_sum.assign 1 ⟨3, 100, 1⟩).assign 2 ⟨4, 200, 2⟩
    pg_sum := ⟨7, 300, 3⟩
    per_pool_sum_deltas := PGMap.init.per_pool_sum_deltas.assign 1 [(⟨1, 10, 0⟩, 50)]
    per_pool_sum_deltas_stamps := PGMap.init.per_pool_sum_deltas_stamps.assign 1 50
    per_pool_sum_delta := PGMap.init.per_pool_sum_delta.assign 1 (⟨1, 10, 0⟩, 50)
    pg_by_osd := PGMap.init.pg_by_osd.assign 4 ((cset.empty.insert ⟨1, 0⟩).insert ⟨1, 1⟩) }

/-- A map with one PG, (pool 1, seed 0), in state UNCLEAN, whose last state change is at
time 10. -/
def one_unclean_pg_map : PGMap :=
  { PGMap.init with
    pg_stat := PGMap.init.pg_stat.assign (pg_t.mk 1 0)
      (pg_stat_t.mk PGMap.STUCK_UNCLEAN [] [] 0 0 0 10 0) }

/-- A builder with one pending report: osd 1 at epoch 5. -/
def one_report_inc : PGMap.Incremental :=
  { PGMap.Incremental.init with
    osd_stat_updates := PGMap.Incremental.init.osd_stat_updates.assign 1 ⟨100, 50, [1]⟩
    osd_epochs := PGMap.Incremental.init.osd_epochs.assign 1 5 }

/-! ## Lemmas on keyed containers -/

theorem length_eq_of_same_keys {K V W : Type} (a : List (K × V)) (b : List (K × W))
    (ha : (lkeys a).Nodup) (hb : (lkeys b).Nodup)
    (h : ∀ k, k ∈ lkeys a ↔ k ∈ lkeys b) : a.length = b.length := by
  have hp : (lkeys a).Perm (lkeys b) := (List.perm_ext_iff_of_nodup ha hb).mpr h
  have := hp.length_eq
  simpa [lkeys] using this

theorem cmap.ext_entries {K V : Type} {a b : cmap K V} (h : a.entries = b.entries) : a = b := by
  cases a; cases b; cases h; rfl

theorem cmap.size_eq_of_same_keys {K V W : Type} (a : cmap K V) (b : cmap K W)
    (h : ∀ k, k ∈ a.keys ↔ k ∈ b.keys) : a.size = b.size :=
  length_eq_of_same_keys a.entries b.entries a.nodup b.nodup h

section container_lemmas

variable {K V : Type} [DecidableEq K]

theorem lfind_lassign_self (k : K) (v : V) (l : List (K × V)) :
    lfind k (lassign k v l) = some v := by
  induction l with
  | nil => simp [lassign, lfind]
  | cons e t ih =>
    unfold lassign
    by_cases h : e.1 = k
    · simp [h, lfind]
    · simp [h, lfind, ih]

theorem lfind_lassign_ne (k x : K) (v : V) (l : List (K × V)) (hx : x ≠ k) :
    lfind x (lassign k v l) = lfind x l := by
  induction l with
  | nil => simp [lassign, lfind, Ne.symm hx]
  | cons e t ih =>
    unfold lassign
    by_cases h : e.1 = k
    · simp [h, lfind, Ne.symm hx]
    · simp [h, lfind, ih]

theorem lfind_lerase_self (k : K) (l : List (K × V)) : lfind k (lerase k l) = none := by
  induction l with
  | nil => simp [lerase, lfind]
  | cons e t ih =>
    unfold lerase
    by_cases h : e.1 = k
    · simp [h, ih]
    · simp [h, lfind, ih]

theorem lfind_lerase_ne (k x : K) (l : List (K × V)) (hx : x ≠ k) :
    lfind x (lerase k l) = lfind x l := by
  induction l with
  | nil => simp [lerase, lfind]
  | cons e t ih =>
    unfold lerase
    by_cases h : e.1 = k
    · have hne : ¬ e.1 = x := fun c => hx (c ▸ h)
      simp [h, lfind, ih, Ne.symm hx]
    · simp [h, lfind, ih]

theorem lfind_eq_none_iff (k : K) (l : List (K × V)) : lfind k l = none ↔ k ∉ lkeys l := by
  induction l with
  | nil => simp [lfind, lkeys]
  | cons e t ih =>
    unfold lfind
    by_cases h : e.1 = k
    · simp [h, lkeys]
    · have ih2 : lfind k t = none ↔ k ∉ List.map Prod.fst t := ih
      simp only [h, if_false, lkeys, List.map_cons, List.mem_cons, not_or]
      rw [ih2]
      constructor
      · intro r
        exact ⟨fun c => h c.symm, r⟩
      · intro r
        exact r.2

theorem lfind_isSome_iff (k : K) (l : List (K × V)) : (lfind k l).isSome = true ↔ k ∈ lkeys l := by
  rw [← not_iff_not, ← lfind_eq_none_iff]
  cases lfind k l <;> simp

theorem lerase_of_not_mem (k : K) (l : List (K × V)) (h : k ∉ lkeys l) : lerase k l = l := by
  induction l with
  | nil => simp [lerase]
  | cons e t ih =>
    have h1 : ¬ e.1 = k := by
      intro c
      apply h
      simp [lkeys, c]
    have h2 : k ∉ lkeys t := by
      intro c
      apply h
      simp only [lkeys, List.map_cons, List.mem_cons]
      exact Or.inr c
    unfold lerase
    simp [h1, ih h2]

theorem lerase_lassign (k : K) (v : V) (l : List (K × V)) :
    lerase k (lassign k v l) = lerase k l := by
  induction l with
  | nil => simp [lassign, lerase]
  | cons e t ih =>
    unfold lassign
    by_cases h : e.1 = k
    · simp [h, lerase]
    · simp [h, lerase, ih]

theorem lerase_idem (k : K) (l : List (K × V)) : lerase k (lerase k l) = lerase k l :=
  lerase_of_not_mem k _ ((lfind_eq_none_iff k _).mp (lfind_lerase_self k l))

theorem lassign_idem (k : K) (v w : V) (l : List (K × V)) :
    lassign k v (lassign k w l) = lassign k v l := by
  induction l with
  | nil => simp [lassign]
  | cons e t ih =>
    unfold lassign
    by_cases h : e.1 = k
    · simp [h, lassign]
    · simp only [h, if_false]
      rw [lassign.eq_def]
      simp [h, ih]

theorem length_lassign (k : K) (v : V) (l : List (K × V)) :
    (lassign k v l).length = if k ∈ lkeys l then l.length else l.length + 1 := by
  induction l with
  | nil => simp [lassign, lkeys]
  | cons e t ih =>
    unfold lassign
    by_cases h : e.1 = k
    · simp [h, lkeys]
    · have hk : (k ∈ lkeys (e :: t)) ↔ k ∈ lkeys t := by
        simp only [lkeys, List.map_cons, List.mem_cons]
        constructor
        · rintro (r | r)
          · exact absurd r.symm h
          · exact r
        · exact Or.inr
      simp only [h, if_false, List.length_cons, ih, hk]
      split <;> rfl

theorem cmap.find_assign_self (m : cmap K V) (k : K) (v : V) : (m.assign k v).find k = some v :=
  lfind_lassign_self k v m.entries

theorem cmap.find_assign_ne (m : cmap K V) (k x : K) (v : V) (hx : x ≠ k) :
    (m.assign k v).find x = m.find x :=
  lfind_lassign_ne k x v m.entries hx

theorem cmap.find_erase_self (m : cmap K V) (k : K) : (m.erase k).find k = none :=
  lfind_lerase_self k m.entries

theorem cmap.find_erase_ne (m : cmap K V) (k x : K) (hx : x ≠ k) :
    (m.erase k).find x = m.find x :=
  lfind_lerase_ne k x m.entries hx

theorem cmap.erase_assign (m : cmap K V) (k : K) (v : V) : (m.assign k v).erase k = m.erase k :=
  cmap.ext_entries (lerase_lassign k v m.entries)

theorem cmap.erase_of_find_none (m : cmap K V) (k : K) (h : m.find k = none) : m.erase k = m :=
  cmap.ext_entries (lerase_of_not_mem k m.entries ((lfind_eq_none_iff k m.entries).mp h))

theorem cmap.erase_idem (m : cmap K V) (k : K) : (m.erase k).erase k = m.erase k :=
  cmap.ext_entries (lerase_idem k m.entries)

theorem cmap.mem_keys_assign (m : cmap K V) (k x : K) (v : V) :
    x ∈ (m.assign k v).keys ↔ x = k ∨ x ∈ m.keys :=
  mem_lkeys_lassign k v m.entries x

theorem cmap.mem_keys_erase (m : cmap K V) (k x : K) :
    x ∈ (m.erase k).keys ↔ x ≠ k ∧ x ∈ m.keys :=
  mem_lkeys_lerase k m.entries x

theorem cmap.find_eq_none_iff (m : cmap K V) (k : K) : m.find k = none ↔ k ∉ m.keys :=
  lfind_eq_none_iff k m.entries

theorem cset.mem_insert (s : cset K) (k x : K) : x ∈ (s.insert k).elems ↔ x = k ∨ x ∈ s.elems := by
  unfold cset.insert
  by_cases h : k ∈ s.elems
  · simp only [h, dif_pos]
    constructor
    · exact Or.inr
    · rintro (r | r)
      · exact r ▸ h
      · exact r
  · simp only [h, dif_neg, not_false_eq_true, List.mem_append, List.mem_singleton]
    tauto

end container_lemmas

/-! ## The builder operations: key sets of the pending containers -/

section builder_lemmas

open PGMap.Incremental

theorem update_stat_eq_some (inc inc1 : PGMap.Incremental) (osd : Int) (epoch : epoch_t)
    (stat : osd_stat_t) (h : inc.update_stat osd epoch stat = some inc1) :
    inc1 = { inc with
      osd_stat_updates := inc.osd_stat_updates.assign osd stat
      osd_epochs := inc.osd_epochs.assign osd epoch } := by
  unfold PGMap.Incremental.update_stat at h
  simp only at h
  split at h
  · exact (Option.some.inj h).symm
  · exact absurd h (by simp)

theorem update_stat_of_same_keys (inc : PGMap.Incremental) (osd : Int) (epoch : epoch_t)
    (stat : osd_stat_t) (h : inc.same_keys) :
    inc.update_stat osd epoch stat = some { inc with
      osd_stat_updates := inc.osd_stat_updates.assign osd stat
      osd_epochs := inc.osd_epochs.assign osd epoch } := by
  unfold PGMap.Incremental.update_stat
  simp only
  rw [if_pos]
  apply cmap.size_eq_of_same_keys
  intro k
  rw [cmap.mem_keys_assign, cmap.mem_keys_assign, h k]

theorem stat_osd_down_up_keys (inc : PGMap.Incremental) (osd : Int) (pg_map : PGMap) (k : Int)
    (h : k ∈ (inc.stat_osd_down_up osd pg_map).1.osd_stat_updates.keys) :
    k = osd ∨ k ∈ inc.osd_stat_updates.keys := by
  unfold PGMap.Incremental.stat_osd_down_up at h
  split at h
  · exact (cmap.mem_keys_assign _ _ _ _).mp h
  · split at h
    · rcases (cmap.mem_keys_assign _ _ _ _).mp h with r | r
      · exact Or.inl r
      · exact (cmap.mem_keys_assign _ _ _ _).mp r
    · exact Or.inr h

theorem stat_osd_down_up_rm (inc : PGMap.Incremental) (osd : Int) (pg_map : PGMap) :
    (inc.stat_osd_down_up osd pg_map).1.osd_stat_rm = inc.osd_stat_rm := by
  unfold PGMap.Incremental.stat_osd_down_up
  split
  · rfl
  · split <;> rfl

theorem apply_upsert_keys (op : BuilderOp) (inc inc1 : PGMap.Incremental)
    (h : op.apply inc = some inc1) (k : Int) (hk : k ∈ inc1.osd_stat_updates.keys) :
    (k ∈ inc.osd_stat_updates.keys ∧ op.removes ≠ some k) ∨ op.upserts = some k := by
  by_cases hu : op.upserts = some k
  · exact Or.inr hu
  · left
    cases op with
    | update_stat osd epoch stat =>
      have e := update_stat_eq_some inc inc1 osd epoch stat h
      subst e
      rcases (cmap.mem_keys_assign _ _ _ _).mp hk with r | r
      · exact absurd (by simp [BuilderOp.upserts, r]) hu
      · exact ⟨r, by simp [BuilderOp.removes]⟩
    | stat_osd_out osd =>
      have e : inc1 = inc.stat_osd_out osd := (Option.some.inj h).symm
      subst e
      rcases (cmap.mem_keys_assign _ _ _ _).mp hk with r | r
      · exact absurd (by simp [BuilderOp.upserts, r]) hu
      · exact ⟨r, by simp [BuilderOp.removes]⟩
    | stat_osd_down_up osd pg_map =>
      have e : inc1 = (inc.stat_osd_down_up osd pg_map).1 := (Option.some.inj h).symm
      subst e
      rcases stat_osd_down_up_keys inc osd pg_map k hk with r | r
      · exact absurd (by simp [BuilderOp.upserts, r]) hu
      · exact ⟨r, by simp [BuilderOp.removes]⟩
    | rm_stat osd =>
      have e : inc1 = inc.rm_stat osd := (Option.some.inj h).symm
      subst e
      have r := (cmap.mem_keys_erase _ _ _).mp hk
      refine ⟨r.2, ?_⟩
      simp only [BuilderOp.removes, ne_eq, Option.some.injEq]
      exact fun c => r.1 c.symm

theorem apply_rm_elems (op : BuilderOp) (inc inc1 : PGMap.Incremental)
    (h : op.apply inc = some inc1) (k : Int) (hk : k ∈ inc1.osd_stat_rm.elems) :
    k ∈ inc.osd_stat_rm.elems ∨ op.removes = some k := by
  cases op with
  | update_stat osd epoch stat =>
    have e := update_stat_eq_some inc inc1 osd epoch stat h
    subst e
    exact Or.inl hk
  | stat_osd_out osd =>
    have e : inc1 = inc.stat_osd_out osd := (Option.some.inj h).symm
    subst e
    exact Or.inl hk
  | stat_osd_down_up osd pg_map =>
    have e : inc1 = (inc.stat_osd_down_up osd pg_map).1 := (Option.some.inj h).symm
    subst e
    rw [stat_osd_down_up_rm] at hk
    exact Or.inl hk
  | rm_stat osd =>
    have e : inc1 = inc.rm_stat osd := (Option.some.inj h).symm
    subst e
    rcases (cset.mem_insert _ _ _).mp hk with r | r
    · exact Or.inr (by simp [BuilderOp.removes, r])
    · exact Or.inl r

theorem run_ops_disjoint (ops : List BuilderOp) :
    ∀ inc inc1 : PGMap.Incremental, run_ops ops inc = some inc1 →
      inc.upsert_rm_disjoint →
      (∀ o ∈ inc.osd_stat_rm.elems, ∀ op ∈ ops, op.upserts ≠ some o) →
      no_upsert_after_rm ops → inc1.upsert_rm_disjoint := by
  induction ops with
  | nil =>
    intro inc inc1 h hd _ _
    have e : inc = inc1 := Option.some.inj h
    exact e ▸ hd
  | cons op rest ih =>
    intro inc inc1 h hd hrm hno
    unfold run_ops at h
    cases hop : op.apply inc with
    | none => simp [hop] at h
    | some inc2 =>
      simp only [hop] at h
      refine ih inc2 inc1 h ?_ ?_ hno.2
      · intro k hk
        rcases apply_upsert_keys op inc inc2 hop k hk.1 with ⟨a, b⟩ | a
        · rcases apply_rm_elems op inc inc2 hop k hk.2 with c | c
          · exact hd k ⟨a, c⟩
          · exact b c
        · rcases apply_rm_elems op inc inc2 hop k hk.2 with c | c
          · exact hrm k c op (List.mem_cons_self _ _) a
          · cases op <;> simp [BuilderOp.upserts, BuilderOp.removes] at a c
      · intro o ho op2 hop2
        rcases apply_rm_elems op inc inc2 hop o ho with c | c
        · exact hrm o c op2 (List.mem_cons_of_mem _ hop2)
        · exact hno.1 o c op2 hop2

end builder_lemmas

/-! ## Claims on the builder -/

section builder_claims

open PGMap.Incremental BuilderOp

/-- C1, the code at the failing input.  On a freshly constructed builder `stat_osd_out(1)`
adds osd 1 to `osd_stat_updates` and nothing to `osd_epochs`: after this one step the key
sets are {1} and {} and the sizes 1 and 0.  The next call `update_stat(2, 5, s)` then
fails its assertion `osd_epochs.size() == osd_stat_updates.size()` (sizes 1 and 2).
The same happens after `stat_osd_down_up(3, m)` on a map `m` that holds a record for
osd 3. -/
theorem stat_osd_out_breaks_update_stat_assertion :
    run_ops [stat_osd_out 1] PGMap.Incremental.init
        = some (PGMap.Incremental.init.stat_osd_out 1) ∧
      (PGMap.Incremental.init.stat_osd_out 1).osd_stat_updates.keys = [1] ∧
      (PGMap.Incremental.init.stat_osd_out 1).osd_epochs.keys = [] ∧
      (PGMap.Incremental.init.stat_osd_out 1).osd_stat_updates.size = 1 ∧
      (PGMap.Incremental.init.stat_osd_out 1).osd_epochs.size = 0 ∧
      run_ops [stat_osd_out 1, update_stat 2 5 osd_stat_t.default] PGMap.Incremental.init
        = none ∧
      run_ops [stat_osd_down_up 3
            { PGMap.init with osd_stat := PGMap.init.osd_stat.assign 3 ⟨100, 96, [7]⟩ },
          update_stat 4 5 osd_stat_t.default] PGMap.Incremental.init
        = none := by
  decide

/-- C2, counterexample.  On a freshly constructed builder, `rm_stat(1)` followed by
`update_stat(1, 5, s)` runs (the assertion holds) and leaves osd 1 both a key of
`osd_stat_updates` and a member of `osd_stat_rm`. -/
theorem update_stat_after_rm_stat_in_both :
    ∃ inc, run_ops [rm_stat 1, update_stat 1 5 osd_stat_t.default] PGMap.Incremental.init
        = some inc ∧
      (1 : Int) ∈ inc.osd_stat_updates.keys ∧ (1 : Int) ∈ inc.osd_stat_rm.elems :=
  ⟨_, rfl, by decide, by decide⟩

/-- C2, amended.  For every sequence of the builder operations that runs on a freshly
constructed builder and in which no `update_stat`, `stat_osd_out` or `stat_osd_down_up`
names an osd that an earlier `rm_stat` of the sequence removed, no osd id is at the same
time a key of `osd_stat_updates` and a member of `osd_stat_rm`. -/
theorem upsert_rm_disjoint_of_no_upsert_after_rm (ops : List BuilderOp)
    (inc : PGMap.Incremental) (hrun : run_ops ops PGMap.Incremental.init = some inc)
    (hno : no_upsert_after_rm ops) :
    ∀ k : Int, ¬ (k ∈ inc.osd_stat_updates.keys ∧ k ∈ inc.osd_stat_rm.elems) :=
  run_ops_disjoint ops PGMap.Incremental.init inc hrun
    (fun k hk => by simp [PGMap.Incremental.init, cmap.empty, cmap.keys, lkeys] at hk)
    (fun o ho => by simp [PGMap.Incremental.init, cset.empty] at ho)
    hno

/-- C2, the amended claim at a concrete sequence: update_stat(1, 5, s), stat_osd_out(2),
rm_stat(2), update_stat(3, 7, s), rm_stat(1). -/
theorem upsert_rm_disjoint_of_no_upsert_after_rm_witness :
    ∃ inc, run_ops [update_stat 1 5 osd_stat_t.default, stat_osd_out 2, rm_stat 2,
          update_stat 3 7 osd_stat_t.default, rm_stat 1] PGMap.Incremental.init = some inc ∧
      inc.osd_stat_updates.keys = [3] ∧ inc.osd_stat_rm.elems = [2, 1] ∧
      ∀ k : Int, ¬ (k ∈ inc.osd_stat_updates.keys ∧ k ∈ inc.osd_stat_rm.elems) :=
  ⟨_, rfl, by decide, by decide,
    upsert_rm_disjoint_of_no_upsert_after_rm
      [update_stat 1 5 osd_stat_t.default, stat_osd_out 2, rm_stat 2,
        update_stat 3 7 osd_stat_t.default, rm_stat 1] _ rfl
      (by simp [no_upsert_after_rm, BuilderOp.removes, BuilderOp.upserts])⟩

/-- C3, counterexample.  A builder records epoch 5 for osd 1; `update_stat(1, 3, s)` with
the stale epoch 3 < 5 is not rejected: afterwards the recorded epoch of osd 1 is 3 and
its pending stat is the new one. -/
theorem update_stat_accepts_stale_epoch :
    ∃ inc0 inc1,
      PGMap.Incremental.init.update_stat 1 5 ⟨100, 50, [1]⟩ = some inc0 ∧
      inc0.osd_epochs.find 1 = some 5 ∧
      inc0.osd_stat_updates.find 1 = some ⟨100, 50, [1]⟩ ∧
      inc0.update_stat 1 3 ⟨100, 60, [2]⟩ = some inc1 ∧
      inc1.osd_epochs.find 1 = some 3 ∧
      inc1.osd_stat_updates.find 1 = some ⟨100, 60, [2]⟩ ∧
      inc1.osd_epochs.find 1 ≠ inc0.osd_epochs.find 1 ∧
      inc1.osd_stat_updates.find 1 ≠ inc0.osd_stat_updates.find 1 :=
  ⟨_, _, rfl, by decide, by decide, rfl, by decide, by decide, by decide, by decide⟩

/-- C3, amended.  For every builder that already records epoch `e` for osd `o` and whose
two pending maps have the same key set (so that the assertion of `update_stat` holds),
`update_stat(o, e2, s)` returns and stores epoch `e2` and stat `s` for `o` together,
for `e2 < e` as for `e2 >= e`: a stale epoch is not rejected, it replaces the recorded
one. -/
theorem update_stat_stores_epoch_and_stat (inc : PGMap.Incremental) (o : Int)
    (e e2 : epoch_t) (s : osd_stat_t) (hrec : inc.osd_epochs.find o = some e)
    (hkeys : inc.same_keys) :
    ∃ inc1, inc.update_stat o e2 s = some inc1 ∧
      inc1.osd_epochs.find o = some e2 ∧ inc1.osd_stat_updates.find o = some s ∧
      (e2 < e → inc1.osd_epochs.find o ≠ inc.osd_epochs.find o) := by
  refine ⟨_, update_stat_of_same_keys inc o e2 s hkeys, ?_, ?_, ?_⟩
  · exact cmap.find_assign_self _ _ _
  · exact cmap.find_assign_self _ _ _
  · intro hlt
    have h1 : (inc.osd_epochs.assign o e2).find o = some e2 := cmap.find_assign_self _ _ _
    show (inc.osd_epochs.assign o e2).find o ≠ inc.osd_epochs.find o
    rw [h1, hrec]
    intro c
    exact absurd (Option.some.inj c) (Nat.ne_of_lt hlt)

/-- C3, the amended claim at a concrete input: osd 1 recorded at epoch 5, then
`update_stat(1, 3, s)`. -/
theorem update_stat_stores_epoch_and_stat_witness :
    one_report_inc.osd_epochs.find 1 = some 5 ∧
      ∃ inc1, one_report_inc.update_stat 1 3 ⟨100, 60, [2]⟩ = some inc1 ∧
        inc1.osd_epochs.find 1 = some 3 ∧
        inc1.osd_stat_updates.find 1 = some ⟨100, 60, [2]⟩ ∧
        ((3 : Nat) < 5 → inc1.osd_epochs.find 1 ≠ one_report_inc.osd_epochs.find 1) :=
  ⟨by decide, update_stat_stores_epoch_and_stat one_report_inc 1 5 3 ⟨100, 60, [2]⟩ (by decide)
    (by intro k; simp [one_report_inc, PGMap.Incremental.init, cmap.assign, cmap.empty,
      cmap.keys, lassign, lkeys])⟩

/-- C9, counterexample.  On the builder reached by `stat_osd_out(1)` from a fresh one
(pending stat for osd 1, no epoch), `update_stat(2, 5, s)` fails its assertion, so that
`update_stat(2, 5, s)` followed by `rm_stat(2)` yields no builder, while `rm_stat(2)`
alone does. -/
theorem update_stat_then_rm_stat_aborts :
    (PGMap.Incremental.init.stat_osd_out 1).update_stat 2 5 osd_stat_t.default = none ∧
      ((PGMap.Incremental.init.stat_osd_out 1).update_stat 2 5 osd_stat_t.default).map
          (fun i => i.rm_stat 2)
        ≠ some ((PGMap.Incremental.init.stat_osd_out 1).rm_stat 2) := by
  decide

/-- C9, amended.  For every builder and osd `o`: after `rm_stat(o)` the osd `o` is a
member of `osd_stat_rm` and has no entry in `osd_stat_updates` or in `osd_epochs`, the
entries of every other osd (and the other members of `osd_stat_rm`) are unchanged, and
whenever `update_stat(o, e, s)` passes its assertion (it does whenever the two pending
maps have the same key set), `update_stat(o, e, s)` followed by `rm_stat(o)` yields the
same builder as `rm_stat(o)` alone. -/
theorem rm_stat_scrubs_pending (inc : PGMap.Incremental) (o : Int) :
    o ∈ (inc.rm_stat o).osd_stat_rm.elems ∧
      (inc.rm_stat o).osd_stat_updates.find o = none ∧
      (inc.rm_stat o).osd_epochs.find o = none ∧
      (∀ k : Int, k ≠ o →
        (inc.rm_stat o).osd_stat_updates.find k = inc.osd_stat_updates.find k ∧
        (inc.rm_stat o).osd_epochs.find k = inc.osd_epochs.find k ∧
        (k ∈ (inc.rm_stat o).osd_stat_rm.elems ↔ k ∈ inc.osd_stat_rm.elems)) ∧
      (∀ (e : epoch_t) (s : osd_stat_t) (inc1 : PGMap.Incremental),
        inc.update_stat o e s = some inc1 → inc1.rm_stat o = inc.rm_stat o) ∧
      (inc.same_keys → ∀ (e : epoch_t) (s : osd_stat_t),
        ∃ inc1, inc.update_stat o e s = some inc1 ∧ inc1.rm_stat o = inc.rm_stat o) := by
  have key : ∀ (e : epoch_t) (s : osd_stat_t) (inc1 : PGMap.Incremental),
      inc.update_stat o e s = some inc1 → inc1.rm_stat o = inc.rm_stat o := by
    intro e s inc1 h
    have e1 := update_stat_eq_some inc inc1 o e s h
    subst e1
    simp only [PGMap.Incremental.rm_stat, cmap.erase_assign]
  refine ⟨?_, ?_, ?_, ?_, key, ?_⟩
  · exact (cset.mem_insert _ _ _).mpr (Or.inl rfl)
  · exact cmap.find_erase_self _ _
  · exact cmap.find_erase_self _ _
  · intro k hk
    refine ⟨cmap.find_erase_ne _ _ _ hk, cmap.find_erase_ne _ _ _ hk, ?_⟩
    constructor
    · intro h
      rcases (cset.mem_insert _ _ _).mp h with r | r
      · exact absurd r hk
      · exact r
    · intro h
      exact (cset.mem_insert _ _ _).mpr (Or.inr h)
  · intro hk e s
    exact ⟨_, update_stat_of_same_keys inc o e s hk, key e s _ (update_stat_of_same_keys inc o e s hk)⟩

/-- C9, the amended claim at a concrete input: on the builder with osd 1 reported at
epoch 5, `update_stat(2, 7, s)` followed by `rm_stat(2)` is `rm_stat(2)` alone. -/
theorem rm_stat_scrubs_pending_witness :
    ∃ inc1, one_report_inc.update_stat 2 7 ⟨100, 60, [2]⟩ = some inc1 ∧
      inc1.osd_stat_updates.find 2 = some ⟨100, 60, [2]⟩ ∧
      inc1.rm_stat 2 = one_report_inc.rm_stat 2 :=
  ⟨_, rfl, by decide,
    (rm_stat_scrubs_pending one_report_inc 2).2.2.2.2.1 7 ⟨100, 60, [2]⟩ _ rfl⟩

end builder_claims

/-! ## Pool sums -/

section pool_sum_lemmas

theorem pool_stat_t.add_default_left (a : pool_stat_t) : pool_stat_t.add pool_stat_t.default a = a := by
  cases a
  simp [pool_stat_t.add, pool_stat_t.default]

theorem pool_stat_t.sub_add_cancel_left (a b : pool_stat_t) :
    pool_stat_t.sub (pool_stat_t.add a b) a = b := by
  cases a
  cases b
  simp [pool_stat_t.add, pool_stat_t.sub]

theorem pool_stat_t.add_left_comm (a b c : pool_stat_t) :
    pool_stat_t.add a (pool_stat_t.add b c) = pool_stat_t.add b (pool_stat_t.add a c) := by
  cases a
  cases b
  cases c
  simp only [pool_stat_t.add, pool_stat_t.mk.injEq]
  omega

theorem pool_stat_t.sub_eq_self_iff (a b : pool_stat_t) :
    a = pool_stat_t.sub a b ↔ b = pool_stat_t.default := by
  cases a
  cases b
  simp only [pool_stat_t.sub, pool_stat_t.default, pool_stat_t.mk.injEq]
  omega

theorem lsum_lerase {K : Type} [DecidableEq K] (k : K) (l : List (K × pool_stat_t))
    (h : (lkeys l).Nodup) :
    lsum l = pool_stat_t.add ((lfind k l).getD pool_stat_t.default) (lsum (lerase k l)) := by
  induction l with
  | nil => simp [lsum, lfind, lerase, pool_stat_t.add, pool_stat_t.default]
  | cons e t ih =>
    have ht : (lkeys t).Nodup := (List.nodup_cons.mp h).2
    have hn : e.1 ∉ lkeys t := (List.nodup_cons.mp h).1
    unfold lfind lerase
    by_cases hk : e.1 = k
    · simp only [hk, if_true, Option.getD_some]
      rw [lerase_of_not_mem k t (hk ▸ hn)]
      rfl
    · simp only [hk, if_false]
      show pool_stat_t.add e.2 (lsum t) = _
      rw [ih ht]
      exact pool_stat_t.add_left_comm _ _ _

theorem get_pg_pool_sum_stat_fst (m : PGMap) (p : Int) :
    (m.get_pg_pool_sum_stat p).1 = (m.pg_pool_sum.find (to_int p)).getD pool_stat_t.default := by
  unfold PGMap.get_pg_pool_sum_stat
  cases m.pg_pool_sum.find (to_int p) <;> rfl

theorem to_int_of_range (p : Int) (h1 : -2 ^ 31 ≤ p) (h2 : p < 2 ^ 31) : to_int p = p := by
  unfold to_int
  norm_num at h1 h2 ⊢
  omega

theorem to_uint64_of_range (p : Int) (h1 : 0 ≤ p) (h2 : p < 2 ^ 64) :
    to_uint64 p = p.toNat := by
  unfold to_uint64
  norm_num at h2 ⊢
  rw [Int.emod_eq_of_lt h1 h2]

end pool_sum_lemmas

/-! ## Claims on the map -/

section map_claims

/-- C4, counterexample.  In a map with pools 1 and 2 whose global sum is the field-wise
sum of the two per-pool sums, `deleted_pool(1)` leaves `pg_sum` as it was: it is not the
former value minus the sum of pool 1, and it is no longer the field-wise sum of the
remaining per-pool sums. -/
theorem deleted_pool_keeps_pg_sum :
    two_pool_map.pg_sum = pool_sums_total two_pool_map.pg_pool_sum ∧
      (two_pool_map.get_pg_pool_sum_stat 1).1 = ⟨3, 100, 1⟩ ∧
      (two_pool_map.deleted_pool 1).pg_sum = ⟨7, 300, 3⟩ ∧
      (two_pool_map.deleted_pool 1).pg_sum
        ≠ pool_stat_t.sub two_pool_map.pg_sum (two_pool_map.get_pg_pool_sum_stat 1).1 ∧
      pool_sums_total (two_pool_map.deleted_pool 1).pg_pool_sum = ⟨4, 200, 2⟩ ∧
      (two_pool_map.deleted_pool 1).pg_sum
        ≠ pool_sums_total (two_pool_map.deleted_pool 1).pg_pool_sum := by
  decide

/-- C4, amended.  For every map and pool id `p`, after `deleted_pool(p)` the global sum
`pg_sum` equals its value before the call (the sum of the removed pool is not subtracted
from it), while the field-wise sum of the remaining per-pool sums is the former one minus
`pg_pool_sum[p]`; so `pg_sum`, when it was the field-wise sum of the per-pool sums before
the call, is still the field-wise sum of the remaining ones exactly when the removed
pool had no entry or a zero-valued sum. -/
theorem deleted_pool_pg_sum (m : PGMap) (p : Int) :
    (m.deleted_pool p).pg_sum = m.pg_sum ∧
      pool_sums_total (m.deleted_pool p).pg_pool_sum
        = pool_stat_t.sub (pool_sums_total m.pg_pool_sum) (m.get_pg_pool_sum_stat p).1 ∧
      (m.pg_sum = pool_sums_total m.pg_pool_sum →
        ((m.deleted_pool p).pg_sum = pool_sums_total (m.deleted_pool p).pg_pool_sum ↔
          (m.get_pg_pool_sum_stat p).1 = pool_stat_t.default)) := by
  have h2 : pool_sums_total (m.deleted_pool p).pg_pool_sum
      = pool_stat_t.sub (pool_sums_total m.pg_pool_sum) (m.get_pg_pool_sum_stat p).1 := by
    rw [get_pg_pool_sum_stat_fst]
    show lsum (lerase (to_int p) m.pg_pool_sum.entries) = _
    unfold pool_sums_total cmap.find
    rw [lsum_lerase (to_int p) m.pg_pool_sum.entries m.pg_pool_sum.nodup]
    exact (pool_stat_t.sub_add_cancel_left _ _).symm
  refine ⟨rfl, h2, ?_⟩
  intro h
  rw [h2]
  show m.pg_sum = _ ↔ _
  rw [h]
  exact pool_stat_t.sub_eq_self_iff _ _

/-- C4, the amended claim at concrete inputs: pool 3 has no entry in the map with pools 1
and 2, and after `deleted_pool(3)` the global sum is still the field-wise sum of the
per-pool sums; after `deleted_pool(1)` it is not. -/
theorem deleted_pool_pg_sum_witness :
    (two_pool_map.deleted_pool 3).pg_sum
        = pool_sums_total (two_pool_map.deleted_pool 3).pg_pool_sum ∧
      ¬ (two_pool_map.deleted_pool 1).pg_sum
        = pool_sums_total (two_pool_map.deleted_pool 1).pg_pool_sum :=
  ⟨((deleted_pool_pg_sum two_pool_map 3).2.2 (by decide)).mpr (by decide),
    fun h => absurd (((deleted_pool_pg_sum two_pool_map 1).2.2 (by decide)).mp h) (by decide)⟩

/-- C5.  For every map and pool id `p`, after `deleted_pool(p)` none of `pg_pool_sum`,
`per_pool_sum_deltas`, `per_pool_sum_deltas_stamps` and `per_pool_sum_delta` has an entry
for `p` (under the key `p` converts to in the key type of each container, which is `p`
itself for a pool id in the range of `int`, resp. a non-negative one), and
`get_pg_pool_sum_stat(p)` returns the zero-valued `pool_stat_t`. -/
theorem deleted_pool_purges (m : PGMap) (p : Int) :
    (m.deleted_pool p).pg_pool_sum.find (to_int p) = none ∧
      (m.deleted_pool p).per_pool_sum_deltas.find (to_uint64 p) = none ∧
      (m.deleted_pool p).per_pool_sum_deltas_stamps.find (to_uint64 p) = none ∧
      (m.deleted_pool p).per_pool_sum_delta.find (to_uint64 p) = none ∧
      ((m.deleted_pool p).get_pg_pool_sum_stat p).1 = pool_stat_t.default ∧
      (-2 ^ 31 ≤ p → p < 2 ^ 31 → (m.deleted_pool p).pg_pool_sum.find p = none) ∧
      (0 ≤ p → p < 2 ^ 64 →
        (m.deleted_pool p).per_pool_sum_deltas.find p.toNat = none ∧
        (m.deleted_pool p).per_pool_sum_deltas_stamps.find p.toNat = none ∧
        (m.deleted_pool p).per_pool_sum_delta.find p.toNat = none) := by
  have h1 : (m.deleted_pool p).pg_pool_sum.find (to_int p) = none := cmap.find_erase_self _ _
  have h2 : (m.deleted_pool p).per_pool_sum_deltas.find (to_uint64 p) = none :=
    cmap.find_erase_self _ _
  have h3 : (m.deleted_pool p).per_pool_sum_deltas_stamps.find (to_uint64 p) = none :=
    cmap.find_erase_self _ _
  have h4 : (m.deleted_pool p).per_pool_sum_delta.find (to_uint64 p) = none :=
    cmap.find_erase_self _ _
  refine ⟨h1, h2, h3, h4, ?_, ?_, ?_⟩
  · rw [get_pg_pool_sum_stat_fst, h1]
    rfl
  · intro a b
    have e := to_int_of_range p a b
    rw [e] at h1
    exact h1
  · intro a b
    have e := to_uint64_of_range p a b
    rw [e] at h2 h3 h4
    exact ⟨h2, h3, h4⟩

/-- C5 at a concrete input: pool 1 of the map with pools 1 and 2. -/
theorem deleted_pool_purges_witness :
    two_pool_map.pg_pool_sum.find 1 = some ⟨3, 100, 1⟩ ∧
      (two_pool_map.deleted_pool 1).pg_pool_sum.find 1 = none ∧
      (two_pool_map.deleted_pool 1).per_pool_sum_deltas.find 1 = none ∧
      (two_pool_map.deleted_pool 1).per_pool_sum_deltas_stamps.find 1 = none ∧
      (two_pool_map.deleted_pool 1).per_pool_sum_delta.find 1 = none :=
  ⟨by decide, (deleted_pool_purges two_pool_map 1).2.2.2.2.2.1 (by decide) (by decide),
    (deleted_pool_purges two_pool_map 1).2.2.2.2.2.2 (by decide) (by decide)⟩

/-- C6.  For every map and every pair of ratios: if both compare equal (`==`) to the
stored `full_ratio` and `nearfull_ratio`, `set_full_ratios` leaves the whole map unchanged
whatever `redo_full_sets` does (it is not run); otherwise the result is `redo_full_sets`
applied once to the map that already holds the new ratios and differs from the old map in
nothing else, and with the re-scan of section 4.5 for `redo_full_sets` the map afterwards
has `full_ratio = full` and `nearfull_ratio = nearfull`. -/
theorem set_full_ratios_spec (m : PGMap) (full nearfull : float) :
    ((float_eq m.full_ratio full && float_eq m.nearfull_ratio nearfull) = true →
        ∀ redo : PGMap → PGMap, m.set_full_ratios redo full nearfull = m) ∧
      ((float_eq m.full_ratio full && float_eq m.nearfull_ratio nearfull) = false →
        (∀ redo : PGMap → PGMap, m.set_full_ratios redo full nearfull
            = redo { m with full_ratio := full, nearfull_ratio := nearfull }) ∧
        ∀ ratio_ge : osd_stat_t → float → Bool,
          (m.set_full_ratios (PGMap.redo_full_sets ratio_ge) full nearfull).full_ratio = full ∧
          (m.set_full_ratios (PGMap.redo_full_sets ratio_ge) full nearfull).nearfull_ratio
            = nearfull) := by
  constructor
  · intro h redo
    unfold PGMap.set_full_ratios
    rw [if_pos h]
  · intro h
    have hr : ∀ redo : PGMap → PGMap, m.set_full_ratios redo full nearfull
        = redo { m with full_ratio := full, nearfull_ratio := nearfull } := by
      intro redo
      unfold PGMap.set_full_ratios
      rw [if_neg (by simp [h])]
    refine ⟨hr, ?_⟩
    intro ratio_ge
    rw [hr]
    exact ⟨rfl, rfl⟩

/-- C6 at concrete inputs: with the stored ratios 0.95 and 0.85 (bit patterns
0x3f733333 and 0x3f59999a), the same pair leaves the map unchanged, and the pair
(0.97, 0.85) (0x3f7851ec) is stored and `redo_full_sets` runs on the map holding it. -/
theorem set_full_ratios_spec_witness :
    (∀ redo : PGMap → PGMap,
        ({ PGMap.init with full_ratio := 0x3f733333, nearfull_ratio := 0x3f59999a } :
          PGMap).set_full_ratios redo 0x3f733333 0x3f59999a
          = { PGMap.init with full_ratio := 0x3f733333, nearfull_ratio := 0x3f59999a }) ∧
      (∀ redo : PGMap → PGMap,
        ({ PGMap.init with full_ratio := 0x3f733333, nearfull_ratio := 0x3f59999a } :
          PGMap).set_full_ratios redo 0x3f7851ec 0x3f59999a
          = redo { PGMap.init with full_ratio := 0x3f7851ec, nearfull_ratio := 0x3f59999a }) :=
  ⟨(set_full_ratios_spec _ 0x3f733333 0x3f59999a).1 (by decide),
    ((set_full_ratios_spec _ 0x3f7851ec 0x3f59999a).2 (by decide)).1⟩

/-- C7.  For every map: if the cached `min_last_epoch_clean` is nonzero,
`get_min_last_epoch_clean` returns the cached value and leaves the map unchanged, whatever
`calc_min_last_epoch_clean` computes (it is not called); if it is zero, it returns
`calc_min_last_epoch_clean()` and stores that result in the cache; in both cases the
cache after the call equals the returned value and no member other than the cache
changes. -/
theorem get_min_last_epoch_clean_spec (calc_mlec : PGMap → epoch_t) (m : PGMap) :
    (m.min_last_epoch_clean ≠ 0 →
        ∀ calc_other : PGMap → epoch_t,
          m.get_min_last_epoch_clean calc_other = (m.min_last_epoch_clean, m)) ∧
      (m.min_last_epoch_clean = 0 →
        m.get_min_last_epoch_clean calc_mlec
          = (calc_mlec m, { m with min_last_epoch_clean := calc_mlec m })) ∧
      (m.get_min_last_epoch_clean calc_mlec).2.min_last_epoch_clean
        = (m.get_min_last_epoch_clean calc_mlec).1 ∧
      { (m.get_min_last_epoch_clean calc_mlec).2 with
          min_last_epoch_clean := m.min_last_epoch_clean } = m := by
  unfold PGMap.get_min_last_epoch_clean
  by_cases h : m.min_last_epoch_clean = 0
  · refine ⟨fun c => absurd h c, fun _ => ?_, ?_, ?_⟩
    · rw [if_pos h]
    · rw [if_pos h]
    · rw [if_pos h]
  · refine ⟨fun _ calc_other => ?_, fun c => absurd c h, ?_, ?_⟩
    · rw [if_neg h]
    · rw [if_neg h]
    · rw [if_neg h]

/-- C7 at concrete inputs: a cache holding 7 is returned as it is; an empty cache is
filled with the computed value 42. -/
theorem get_min_last_epoch_clean_spec_witness :
    (∀ calc_other : PGMap → epoch_t,
        ({ PGMap.init with min_last_epoch_clean := 7 } : PGMap).get_min_last_epoch_clean
          calc_other = (7, { PGMap.init with min_last_epoch_clean := 7 })) ∧
      PGMap.init.get_min_last_epoch_clean (fun _ => 42)
        = (42, { PGMap.init with min_last_epoch_clean := 42 }) :=
  ⟨(get_min_last_epoch_clean_spec (fun _ => 0)
      { PGMap.init with min_last_epoch_clean := 7 }).1 (by decide),
    (get_min_last_epoch_clean_spec (fun _ => 42) PGMap.init).2.1 rfl⟩

/-- C8.  For every map: `get_pg_pool_sum_stat(p)` returns the stored sum when pool `p` has
an entry in `pg_pool_sum` and the default `pool_stat_t` otherwise, `get_num_pg_by_osd(o)`
returns the size of `pg_by_osd[o]` when osd `o` has an entry and 0 otherwise, and both
leave the map, with the key sets of `pg_pool_sum` and `pg_by_osd`, unchanged. -/
theorem keyed_queries_spec (m : PGMap) (p o : Int) :
    (∀ s, m.pg_pool_sum.find (to_int p) = some s → (m.get_pg_pool_sum_stat p).1 = s) ∧
      (m.pg_pool_sum.find (to_int p) = none →
        (m.get_pg_pool_sum_stat p).1 = pool_stat_t.default) ∧
      (∀ s, m.pg_by_osd.find o = some s → (m.get_num_pg_by_osd o).1 = s.size) ∧
      (m.pg_by_osd.find o = none → (m.get_num_pg_by_osd o).1 = 0) ∧
      (m.get_pg_pool_sum_stat p).2 = m ∧
      (m.get_num_pg_by_osd o).2 = m ∧
      (m.get_pg_pool_sum_stat p).2.pg_pool_sum.keys = m.pg_pool_sum.keys ∧
      (m.get_num_pg_by_osd o).2.pg_by_osd.keys = m.pg_by_osd.keys := by
  have h1 : (m.get_pg_pool_sum_stat p).2 = m := by
    unfold PGMap.get_pg_pool_sum_stat
    cases m.pg_pool_sum.find (to_int p) <;> rfl
  have h2 : (m.get_num_pg_by_osd o).2 = m := by
    unfold PGMap.get_num_pg_by_osd
    cases m.pg_by_osd.find o <;> rfl
  refine ⟨?_, ?_, ?_, ?_, h1, h2, by rw [h1], by rw [h2]⟩
  · intro s hs
    unfold PGMap.get_pg_pool_sum_stat
    rw [hs]
  · intro hs
    unfold PGMap.get_pg_pool_sum_stat
    rw [hs]
  · intro s hs
    unfold PGMap.get_num_pg_by_osd
    rw [hs]
  · intro hs
    unfold PGMap.get_num_pg_by_osd
    rw [hs]

/-- C8 at concrete inputs: in the map with pools 1 and 2 and two PGs on osd 4, pool 1 has
its stored sum, pool 3 the default one, osd 4 has 2 PGs and osd 5 has 0. -/
theorem keyed_queries_spec_witness :
    (two_pool_map.get_pg_pool_sum_stat 1).1 = ⟨3, 100, 1⟩ ∧
      (two_pool_map.get_pg_pool_sum_stat 3).1 = pool_stat_t.default ∧
      (two_pool_map.get_num_pg_by_osd 4).1 = 2 ∧
      (two_pool_map.get_num_pg_by_osd 5).1 = 0 :=
  ⟨(keyed_queries_spec two_pool_map 1 4).1 _ (by decide),
    (keyed_queries_spec two_pool_map 3 4).2.1 (by decide),
    ((keyed_queries_spec two_pool_map 1 4).2.2.1
      ((cset.empty.insert (⟨1, 0⟩ : pg_t)).insert ⟨1, 1⟩) (by decide)).trans (by decide),
    (keyed_queries_spec two_pool_map 1 5).2.2.2.1 (by decide)⟩

/-- C10.  For every map and pool id `p`: `deleted_pool(p)` applied to a map with no entry
for `p` in `pg_pool_sum`, `per_pool_sum_deltas`, `per_pool_sum_deltas_stamps` and
`per_pool_sum_delta` (under the key `p` converts to in the key type of each container,
which is `p` itself for a non-negative pool id in the range of `int`) leaves the map
unchanged, and `deleted_pool(p)` applied twice gives the same map as applied once. -/
theorem deleted_pool_idempotent (m : PGMap) (p : Int) :
    (m.pg_pool_sum.find (to_int p) = none →
        m.per_pool_sum_deltas.find (to_uint64 p) = none →
        m.per_pool_sum_deltas_stamps.find (to_uint64 p) = none →
        m.per_pool_sum_delta.find (to_uint64 p) = none →
        m.deleted_pool p = m) ∧
      (m.deleted_pool p).deleted_pool p = m.deleted_pool p ∧
      (0 ≤ p → p < 2 ^ 31 →
        m.pg_pool_sum.find p = none →
        m.per_pool_sum_deltas.find p.toNat = none →
        m.per_pool_sum_deltas_stamps.find p.toNat = none →
        m.per_pool_sum_delta.find p.toNat = none →
        m.deleted_pool p = m) := by
  have hconv : m.pg_pool_sum.find (to_int p) = none →
      m.per_pool_sum_deltas.find (to_uint64 p) = none →
      m.per_pool_sum_deltas_stamps.find (to_uint64 p) = none →
      m.per_pool_sum_delta.find (to_uint64 p) = none →
      m.deleted_pool p = m := by
    intro h1 h2 h3 h4
    unfold PGMap.deleted_pool
    rw [cmap.erase_of_find_none _ _ h1, cmap.erase_of_find_none _ _ h2,
      cmap.erase_of_find_none _ _ h3, cmap.erase_of_find_none _ _ h4]
  refine ⟨hconv, ?_, ?_⟩
  · unfold PGMap.deleted_pool
    simp only [cmap.erase_idem]
  · intro a b h1 h2 h3 h4
    have e1 : to_int p = p := to_int_of_range p (by omega) b
    have e2 : to_uint64 p = p.toNat := to_uint64_of_range p a (by omega)
    rw [← e1] at h1
    rw [← e2] at h2 h3 h4
    exact hconv h1 h2 h3 h4

/-- C10 at concrete inputs: pool 3 has no entry in the map with pools 1 and 2, and
`deleted_pool(3)` leaves that map unchanged; `deleted_pool(1)` changes it, and twice is
the same as once. -/
theorem deleted_pool_idempotent_witness :
    two_pool_map.deleted_pool 3 = two_pool_map ∧
      (two_pool_map.deleted_pool 1).deleted_pool 1 = two_pool_map.deleted_pool 1 ∧
      two_pool_map.deleted_pool 1 ≠ two_pool_map :=
  ⟨(deleted_pool_idempotent two_pool_map 3).2.2 (by decide) (by decide) (by decide)
      (by decide) (by decide) (by decide),
    (deleted_pool_idempotent two_pool_map 1).2.1, by decide⟩

end map_claims

/-! ## Claims on the version and on the stuck-condition constants -/

section version_claims

/-- C11, counterexample.  On a map at version 5, `set_version(3)` leaves the map at
version 3, which is smaller than the version before the call. -/
theorem set_version_can_decrease :
    ({ PGMap.init with version := 5 } : PGMap).get_version = 5 ∧
      (({ PGMap.init with version := 5 } : PGMap).set_version 3).get_version = 3 ∧
      ¬ ({ PGMap.init with version := 5 } : PGMap).get_version
          ≤ (({ PGMap.init with version := 5 } : PGMap).set_version 3).get_version := by
  decide

/-- C11, amended.  For every map and every operation whose body is given in the header:
`set_last_osdmap_epoch`, `set_last_pg_scan`, `set_stamp`, `set_full_ratios`,
`deleted_pool` and `get_min_last_epoch_clean` leave the version as it was (so it is not
smaller than before); `set_version(v)` sets the version to `v` whatever the current
version is, so the version after it is not smaller than before exactly when `v` is not
smaller than the current version. -/
theorem version_after_map_op (ratio_ge : osd_stat_t → float → Bool)
    (calc_mlec : PGMap → epoch_t) (m : PGMap) (op : MapOp) :
    (∀ v, op = MapOp.set_version v →
        (MapOp.apply ratio_ge calc_mlec m op).version = v ∧
        (m.version ≤ (MapOp.apply ratio_ge calc_mlec m op).version ↔ m.version ≤ v)) ∧
      ((∀ v, op ≠ MapOp.set_version v) →
        (MapOp.apply ratio_ge calc_mlec m op).version = m.version) := by
  constructor
  · intro v hv
    subst hv
    exact ⟨rfl, Iff.rfl⟩
  · intro hne
    cases op with
    | set_version v => exact absurd rfl (hne v)
    | set_last_osdmap_epoch e => rfl
    | set_last_pg_scan e => rfl
    | set_stamp s => rfl
    | set_full_ratios full nearfull =>
      show (m.set_full_ratios (PGMap.redo_full_sets ratio_ge) full nearfull).version = m.version
      unfold PGMap.set_full_ratios
      split <;> rfl
    | deleted_pool pool => rfl
    | get_min_last_epoch_clean =>
      show (m.get_min_last_epoch_clean calc_mlec).2.version = m.version
      unfold PGMap.get_min_last_epoch_clean
      split <;> rfl

/-- C11, the amended claim at concrete inputs: on the map with pools 1 and 2 at version
0, `deleted_pool(1)` and `set_full_ratios` keep version 0, and `set_version(4)` gives
version 4. -/
theorem version_after_map_op_witness :
    (MapOp.apply (fun _ _ => false) PGMap.calc_min_last_epoch_clean two_pool_map
        (MapOp.deleted_pool 1)).version = two_pool_map.version ∧
      (MapOp.apply (fun _ _ => false) PGMap.calc_min_last_epoch_clean two_pool_map
        (MapOp.set_full_ratios 0x3f733333 0x3f59999a)).version = two_pool_map.version ∧
      (MapOp.apply (fun _ _ => false) PGMap.calc_min_last_epoch_clean two_pool_map
        (MapOp.set_version 4)).version = 4 :=
  ⟨(version_after_map_op _ _ two_pool_map (MapOp.deleted_pool 1)).2 (by simp),
    (version_after_map_op _ _ two_pool_map (MapOp.set_full_ratios 0x3f733333 0x3f59999a)).2
      (by simp),
    ((version_after_map_op _ _ two_pool_map (MapOp.set_version 4)).1 4 rfl).1⟩

theorem stuck_mask_bits :
    ∀ a0 a1 a2 a3 a4 b0 b1 b2 b3 b4 : Bool,
      ((if a0 then PGMap.STUCK_INACTIVE else 0) ||| (if a1 then PGMap.STUCK_UNCLEAN else 0) |||
        (if a2 then PGMap.STUCK_UNDERSIZED else 0) ||| (if a3 then PGMap.STUCK_DEGRADED else 0) |||
        (if a4 then PGMap.STUCK_STALE else 0))
      = ((if b0 then PGMap.STUCK_INACTIVE else 0) ||| (if b1 then PGMap.STUCK_UNCLEAN else 0) |||
        (if b2 then PGMap.STUCK_UNDERSIZED else 0) ||| (if b3 then PGMap.STUCK_DEGRADED else 0) |||
        (if b4 then PGMap.STUCK_STALE else 0)) →
      a0 = b0 ∧ a1 = b1 ∧ a2 = b2 ∧ a3 = b3 ∧ a4 = b4 := by
  decide

theorem stuck_mask_bound :
    ∀ a0 a1 a2 a3 a4 : Bool,
      ((if a0 then PGMap.STUCK_INACTIVE else 0) ||| (if a1 then PGMap.STUCK_UNCLEAN else 0) |||
        (if a2 then PGMap.STUCK_UNDERSIZED else 0) ||| (if a3 then PGMap.STUCK_DEGRADED else 0) |||
        (if a4 then PGMap.STUCK_STALE else 0)) ≤ 31 := by
  decide

/-- C12.  The five constants `STUCK_INACTIVE`, `STUCK_UNCLEAN`, `STUCK_UNDERSIZED`,
`STUCK_DEGRADED` and `STUCK_STALE` are the single-bit masks 1, 2, 4, 8 and 16, each
nonzero; the bitwise AND of any two distinct ones is 0; and two different subsets of the
conditions OR to two different masks, every such mask being in the range 0..31. -/
theorem stuck_constants_independent :
    (PGMap.STUCK_INACTIVE = 2 ^ 0 ∧ PGMap.STUCK_UNCLEAN = 2 ^ 1 ∧
        PGMap.STUCK_UNDERSIZED = 2 ^ 2 ∧ PGMap.STUCK_DEGRADED = 2 ^ 3 ∧
        PGMap.STUCK_STALE = 2 ^ 4) ∧
      (∀ a : StuckKind, a.bit ≠ 0) ∧
      (∀ a b : StuckKind, a ≠ b → a.bit &&& b.bit = 0) ∧
      (∀ s t : StuckKind → Bool, s ≠ t → stuck_mask s ≠ stuck_mask t) ∧
      (∀ s : StuckKind → Bool, stuck_mask s ≤ 31) := by
  refine ⟨by decide, ?_, ?_, ?_, ?_⟩
  · intro a
    cases a <;> decide
  · intro a b
    cases a <;> cases b <;> decide
  · intro s t hne heq
    apply hne
    have h := stuck_mask_bits (s .inactive) (s .unclean) (s .undersized) (s .degraded)
      (s .stale) (t .inactive) (t .unclean) (t .undersized) (t .degraded) (t .stale) heq
    funext k
    cases k
    · exact h.1
    · exact h.2.1
    · exact h.2.2.1
    · exact h.2.2.2.1
    · exact h.2.2.2.2
  · intro s
    exact stuck_mask_bound (s .inactive) (s .unclean) (s .undersized) (s .degraded) (s .stale)

end version_claims

/-! ## Claims on the members modelled from the specification -/

section spec_member_claims

theorem lfind_filter {K V : Type} [DecidableEq K] (p : K × V → Bool) (k : K)
    (l : List (K × V)) (h : (lkeys l).Nodup) :
    lfind k (l.filter p) = (lfind k l).bind (fun v => if p (k, v) then some v else none) := by
  induction l with
  | nil => simp [lfind]
  | cons e t ih =>
    have ht : (lkeys t).Nodup := (List.nodup_cons.mp h).2
    have hn : e.1 ∉ lkeys t := (List.nodup_cons.mp h).1
    by_cases hk : e.1 = k
    · obtain ⟨a, b⟩ := e
      have hk2 : a = k := hk
      subst hk2
      have hnone : lfind a (t.filter p) = none := by
        rw [lfind_eq_none_iff]
        intro c
        exact hn (((List.filter_sublist t).map Prod.fst).subset c)
      by_cases hp : p (a, b) = true
      · rw [List.filter_cons_of_pos hp]
        simp [lfind, hp]
      · rw [List.filter_cons_of_neg hp, hnone]
        simp [lfind, hp]
    · have hstep : lfind k (e :: t) = lfind k t := by simp [lfind, hk]
      rw [hstep, ← ih ht]
      by_cases hp : p e = true
      · rw [List.filter_cons_of_pos hp]
        simp [lfind, hk]
      · rw [List.filter_cons_of_neg hp]

theorem get_stuck_stats_find (m : PGMap) (types : Nat) (cutoff : utime_t) (pgid : pg_t)
    (s : pg_stat_t) :
    (m.get_stuck_stats types cutoff).1.find pgid = some s ↔
      (m.pg_stat.find pgid = some s ∧ s.last_change ≤ cutoff ∧ s.state &&& types ≠ 0) := by
  show lfind pgid (m.pg_stat.entries.filter _) = some s ↔ (lfind pgid m.pg_stat.entries = some s ∧ _)
  rw [lfind_filter _ pgid m.pg_stat.entries m.pg_stat.nodup]
  cases hf : lfind pgid m.pg_stat.entries with
  | none => simp
  | some r =>
    simp only [Option.some_bind, Option.some.injEq]
    constructor
    · intro h
      split at h
      · rename_i hp
        have e : r = s := Option.some.inj h
        subst e
        simp only [Bool.and_eq_true, decide_eq_true_eq, bne_iff_ne, ne_eq] at hp
        exact ⟨rfl, hp.1, hp.2⟩
      · exact absurd h (by simp)
    · rintro ⟨e, h1, h2⟩
      subst e
      rw [if_pos]
      simp only [Bool.and_eq_true, decide_eq_true_eq, bne_iff_ne, ne_eq]
      exact ⟨h1, h2⟩

/-- C13.  For every map, mask and cutoff, `get_stuck_stats(types, cutoff, stuck_pgs)`
leaves the map unchanged and fills `stuck_pgs` with exactly the PG records whose last
state change is at or before the cutoff and whose state matches at least one requested
bit; in particular a record with state UNCLEAN and last state change `T` is included for
mask UNCLEAN with cutoff `T` and excluded with every earlier cutoff, `T - 1` among them. -/
theorem get_stuck_stats_spec (m : PGMap) (types : Nat) (cutoff : utime_t) :
    (m.get_stuck_stats types cutoff).2 = m ∧
      (∀ (pgid : pg_t) (s : pg_stat_t),
        (m.get_stuck_stats types cutoff).1.find pgid = some s ↔
          (m.pg_stat.find pgid = some s ∧ s.last_change ≤ cutoff ∧ s.state &&& types ≠ 0)) ∧
      (∀ (pgid : pg_t) (s : pg_stat_t) (T : utime_t),
        m.pg_stat.find pgid = some s → s.state = PGMap.STUCK_UNCLEAN → s.last_change = T →
          (m.get_stuck_stats PGMap.STUCK_UNCLEAN T).1.find pgid = some s ∧
          (∀ c : utime_t, c < T →
            (m.get_stuck_stats PGMap.STUCK_UNCLEAN c).1.find pgid = none) ∧
          (0 < T → (m.get_stuck_stats PGMap.STUCK_UNCLEAN (T - 1)).1.find pgid = none)) := by
  refine ⟨rfl, get_stuck_stats_find m types cutoff, ?_⟩
  intro pgid s T hf hs hT
  have hex : ∀ c : utime_t, c < T →
      (m.get_stuck_stats PGMap.STUCK_UNCLEAN c).1.find pgid = none := by
    intro c hc
    cases hr : (m.get_stuck_stats PGMap.STUCK_UNCLEAN c).1.find pgid with
    | none => rfl
    | some r =>
      have h := (get_stuck_stats_find m PGMap.STUCK_UNCLEAN c pgid r).mp hr
      have e : s = r := Option.some.inj (hf.symm.trans h.1)
      subst e
      have hle : s.last_change ≤ c := h.2.1
      rw [hT] at hle
      exact absurd (Nat.lt_of_le_of_lt hle hc) (Nat.lt_irrefl T)
  refine ⟨?_, hex, fun hpos => hex (T - 1) (Nat.sub_lt hpos Nat.one_pos)⟩
  rw [get_stuck_stats_find]
  refine ⟨hf, Nat.le_of_eq hT, ?_⟩
  rw [hs]
  decide

/-- C13 at a concrete input: a map with one PG in state UNCLEAN whose last state change
is at time 10; with mask UNCLEAN it is returned for cutoff 10 and not for cutoff 9. -/
theorem get_stuck_stats_spec_witness :
    (one_unclean_pg_map.get_stuck_stats PGMap.STUCK_UNCLEAN 10).1.find ⟨1, 0⟩
        = some ⟨PGMap.STUCK_UNCLEAN, [], [], 0, 0, 0, 10, 0⟩ ∧
      (one_unclean_pg_map.get_stuck_stats PGMap.STUCK_UNCLEAN (10 - 1)).1.find ⟨1, 0⟩
        = none :=
  ⟨((get_stuck_stats_spec one_unclean_pg_map PGMap.STUCK_UNCLEAN 10).2.2 ⟨1, 0⟩
      ⟨PGMap.STUCK_UNCLEAN, [], [], 0, 0, 0, 10, 0⟩ 10 (by decide) rfl rfl).1,
    ((get_stuck_stats_spec one_unclean_pg_map PGMap.STUCK_UNCLEAN 10).2.2 ⟨1, 0⟩
      ⟨PGMap.STUCK_UNCLEAN, [], [], 0, 0, 0, 10, 0⟩ 10 (by decide) rfl rfl).2.2 (by decide)⟩

/-- C14.  For every map at version `v+1` and every Incremental built against version `v`,
`apply_incremental` rejects the update with `VersionConflict` and leaves the whole map
unchanged (as it does for every update not built against the current version); an
accepted update, built against the current version `v`, leaves the map at version
`v+1`. -/
theorem apply_incremental_version (built_against : PGMap.Incremental → version_t)
    (apply_changes : PGMap → PGMap.Incremental → PGMap) (m : PGMap)
    (inc : PGMap.Incremental) :
    (∀ v : version_t, m.version = v + 1 → built_against inc = v →
        m.apply_incremental built_against apply_changes inc
          = (apply_status.VersionConflict, m)) ∧
      (built_against inc ≠ m.version →
        m.apply_incremental built_against apply_changes inc
          = (apply_status.VersionConflict, m)) ∧
      (built_against inc = m.version →
        (m.apply_incremental built_against apply_changes inc).1 = apply_status.applied ∧
        (m.apply_incremental built_against apply_changes inc).2.version = m.version + 1) := by
  have hrej : built_against inc ≠ m.version →
      m.apply_incremental built_against apply_changes inc
        = (apply_status.VersionConflict, m) := by
    intro h
    unfold PGMap.apply_incremental
    rw [if_neg h]
  refine ⟨?_, hrej, ?_⟩
  · intro v hv hb
    apply hrej
    rw [hb, hv]
    exact Nat.ne_of_lt (Nat.lt_succ_self v)
  · intro h
    unfold PGMap.apply_incremental
    rw [if_pos h]
    exact ⟨rfl, rfl⟩

/-- C14 at concrete inputs, the version an update was built against being its member
`version` and the changes being the new stamp: a map at version 8 rejects an update
built against version 7 and stays as it is; it accepts one built against version 8 and
is then at version 9. -/
theorem apply_incremental_version_witness :
    ({ PGMap.init with version := 8 } : PGMap).apply_incremental (fun i => i.version)
        (fun s i => s.set_stamp i.stamp) { PGMap.Incremental.init with version := 7 }
        = (apply_status.VersionConflict, { PGMap.init with version := 8 }) ∧
      (({ PGMap.init with version := 8 } : PGMap).apply_incremental (fun i => i.version)
        (fun s i => s.set_stamp i.stamp)
        { PGMap.Incremental.init with version := 8, stamp := 77 }).2.version = 8 + 1 :=
  ⟨(apply_incremental_version (fun i => i.version) (fun s i => s.set_stamp i.stamp)
      { PGMap.init with version := 8 } { PGMap.Incremental.init with version := 7 }).1 7
      rfl rfl,
    ((apply_incremental_version (fun i => i.version) (fun s i => s.set_stamp i.stamp)
      { PGMap.init with version := 8 }
      { PGMap.Incremental.init with version := 8, stamp := 77 }).2.2 rfl).2⟩

end spec_member_claims

/-! ## Further claims on the builder -/

section builder_frame_claims

open PGMap.Incremental BuilderOp

/-- C15.  For every builder `inc`, map `m` and osd `o` such that `o` has no pending entry
in `inc.osd_stat_updates` and no record in `m.osd_stat`, `stat_osd_down_up(o, m)` leaves
`inc` (all of its members) and `m` unchanged; in particular there is no pending record
for `o` afterwards. -/
theorem stat_osd_down_up_noop (inc : PGMap.Incremental) (m : PGMap) (o : Int)
    (hpending : inc.osd_stat_updates.find o = none) (hrecord : m.osd_stat.find o = none) :
    inc.stat_osd_down_up o m = (inc, m) ∧
      (inc.stat_osd_down_up o m).1.osd_stat_updates.find o = none := by
  have h : inc.stat_osd_down_up o m = (inc, m) := by
    unfold PGMap.Incremental.stat_osd_down_up
    rw [hpending]
    simp only
    rw [hrecord]
  rw [h]
  exact ⟨rfl, hpending⟩

/-- C15 at a concrete input: osd 2 has no pending entry in the builder that holds a
report for osd 1 only, and no record in the map without osd records. -/
theorem stat_osd_down_up_noop_witness :
    one_report_inc.stat_osd_down_up 2 two_pool_map = (one_report_inc, two_pool_map) ∧
      (one_report_inc.stat_osd_down_up 2 two_pool_map).1.osd_stat_updates.find 2 = none :=
  stat_osd_down_up_noop one_report_inc two_pool_map 2 (by decide) (by decide)

/-- C16.  For every builder `inc`, map `m` and osd `o`: if `o` has a pending update `u`,
the pending update of `o` becomes `u` with `op_queue_age_hist` cleared; otherwise, if
`m.osd_stat` holds a record `r` for `o`, it becomes `r` with `op_queue_age_hist` cleared;
clearing the histogram preserves every other field of the record; and every other osd's
pending update, every other member of the builder (`osd_epochs` and `osd_stat_rm` among
them) and `m` are unchanged. -/
theorem stat_osd_down_up_spec (inc : PGMap.Incremental) (m : PGMap) (o : Int) :
    (∀ u, inc.osd_stat_updates.find o = some u →
        (inc.stat_osd_down_up o m).1.osd_stat_updates.find o = some u.clear_hist) ∧
      (inc.osd_stat_updates.find o = none → ∀ r, m.osd_stat.find o = some r →
        (inc.stat_osd_down_up o m).1.osd_stat_updates.find o = some r.clear_hist) ∧
      (∀ s : osd_stat_t, s.clear_hist.op_queue_age_hist = [] ∧
        s.clear_hist.kb = s.kb ∧ s.clear_hist.kb_used = s.kb_used) ∧
      (∀ k : Int, k ≠ o →
        (inc.stat_osd_down_up o m).1.osd_stat_updates.find k = inc.osd_stat_updates.find k) ∧
      (inc.stat_osd_down_up o m).1.osd_epochs = inc.osd_epochs ∧
      (inc.stat_osd_down_up o m).1.osd_stat_rm = inc.osd_stat_rm ∧
      { (inc.stat_osd_down_up o m).1 with osd_stat_updates := inc.osd_stat_updates } = inc ∧
      (inc.stat_osd_down_up o m).2 = m := by
  unfold PGMap.Incremental.stat_osd_down_up
  cases hp : inc.osd_stat_updates.find o with
  | some u =>
    refine ⟨?_, ?_, fun s => ⟨rfl, rfl, rfl⟩, ?_, rfl, rfl, rfl, rfl⟩
    · intro u2 hu
      have e : u = u2 := Option.some.inj hu
      subst e
      exact cmap.find_assign_self _ _ _
    · intro c
      exact absurd c (by simp)
    · intro k hk
      exact cmap.find_assign_ne _ _ _ _ hk
  | none =>
    cases hr : m.osd_stat.find o with
    | some r =>
      refine ⟨?_, ?_, fun s => ⟨rfl, rfl, rfl⟩, ?_, rfl, rfl, rfl, rfl⟩
      · intro u hu
        exact absurd hu (by simp)
      · intro _ r2 hr2
        have e : r = r2 := Option.some.inj hr2
        subst e
        exact cmap.find_assign_self _ _ _
      · intro k hk
        simp only
        rw [cmap.find_assign_ne _ _ _ _ hk, cmap.find_assign_ne _ _ _ _ hk]
    | none =>
      refine ⟨?_, ?_, fun s => ⟨rfl, rfl, rfl⟩, ?_, rfl, rfl, rfl, rfl⟩
      · intro u hu
        exact absurd hu (by simp)
      · intro _ r2 hr2
        exact absurd hr2 (by simp)
      · intro k _
        rfl

/-- C16 at concrete inputs: the pending update (100, 50, [1]) of osd 1 becomes
(100, 50, []), the record of the map being passed over; osd 3, without a pending update,
gets the record (200, 20, [4, 4]) of the map with the histogram cleared. -/
theorem stat_osd_down_up_spec_witness :
    (one_report_inc.stat_osd_down_up 1
        { PGMap.init with osd_stat := PGMap.init.osd_stat.assign 1 ⟨300, 30, [9]⟩ }
      ).1.osd_stat_updates.find 1 = some ⟨100, 50, []⟩ ∧
      (one_report_inc.stat_osd_down_up 3
        { PGMap.init with osd_stat := PGMap.init.osd_stat.assign 3 ⟨200, 20, [4, 4]⟩ }
      ).1.osd_stat_updates.find 3 = some ⟨200, 20, []⟩ :=
  ⟨(stat_osd_down_up_spec one_report_inc
      { PGMap.init with osd_stat := PGMap.init.osd_stat.assign 1 ⟨300, 30, [9]⟩ } 1).1
      ⟨100, 50, [1]⟩ (by decide),
    (stat_osd_down_up_spec one_report_inc
      { PGMap.init with osd_stat := PGMap.init.osd_stat.assign 3 ⟨200, 20, [4, 4]⟩ } 3).2.1
      (by decide) ⟨200, 20, [4, 4]⟩ (by decide)⟩

/-- C17.  For every builder and osd `o`, after `stat_osd_out(o)` the pending update of
`o` is the default-constructed `osd_stat_t` whatever was pending before, every other
osd's pending update is unchanged, `osd_epochs`, `osd_stat_rm` and every other member are
unchanged, and `stat_osd_out(o)` applied twice gives the same builder as applied once. -/
theorem stat_osd_out_spec (inc : PGMap.Incremental) (o : Int) :
    (inc.stat_osd_out o).osd_stat_updates.find o = some osd_stat_t.default ∧
      (∀ k : Int, k ≠ o →
        (inc.stat_osd_out o).osd_stat_updates.find k = inc.osd_stat_updates.find k) ∧
      (inc.stat_osd_out o).osd_epochs = inc.osd_epochs ∧
      (inc.stat_osd_out o).osd_stat_rm = inc.osd_stat_rm ∧
      { inc.stat_osd_out o with osd_stat_updates := inc.osd_stat_updates } = inc ∧
      (inc.stat_osd_out o).stat_osd_out o = inc.stat_osd_out o := by
  refine ⟨cmap.find_assign_self _ _ _, fun k hk => cmap.find_assign_ne _ _ _ _ hk,
    rfl, rfl, rfl, ?_⟩
  unfold PGMap.Incremental.stat_osd_out
  simp only
  congr 1
  exact cmap.ext_entries (lassign_idem o _ _ _)

/-- C17 at a concrete input: the pending update (100, 50, [1]) of osd 1 is replaced by
the default one, and a second `stat_osd_out(1)` changes nothing. -/
theorem stat_osd_out_spec_witness :
    one_report_inc.osd_stat_updates.find 1 = some ⟨100, 50, [1]⟩ ∧
      (one_report_inc.stat_osd_out 1).osd_stat_updates.find 1 = some ⟨0, 0, []⟩ ∧
      (one_report_inc.stat_osd_out 1).stat_osd_out 1 = one_report_inc.stat_osd_out 1 :=
  ⟨by decide, (stat_osd_out_spec one_report_inc 1).1,
    (stat_osd_out_spec one_report_inc 1).2.2.2.2.2⟩

end builder_frame_claims

/-! ## Pool ids and container key types -/

section pool_id_claims

theorem to_uint64_injective (p q : Int) (hp1 : -2 ^ 63 ≤ p) (hp2 : p < 2 ^ 63)
    (hq1 : -2 ^ 63 ≤ q) (hq2 : q < 2 ^ 63) (h : to_uint64 p = to_uint64 q) : p = q := by
  unfold to_uint64 at h
  have a : (0 : Int) ≤ p % 2 ^ 64 := Int.emod_nonneg p (by norm_num)
  have b : (0 : Int) ≤ q % 2 ^ 64 := Int.emod_nonneg q (by norm_num)
  have c : p % 2 ^ 64 = q % 2 ^ 64 := by
    have hc : ((p % 2 ^ 64).toNat : Int) = ((q % 2 ^ 64).toNat : Int) := by rw [h]
    rw [Int.toNat_of_nonneg a, Int.toNat_of_nonneg b] at hc
    exact hc
  norm_num at hp1 hp2 hq1 hq2 c
  omega

theorem deleted_pool_other_pool (m : PGMap) (p q : Int) :
    (to_int q ≠ to_int p →
        ((m.deleted_pool p).get_pg_pool_sum_stat q).1 = (m.get_pg_pool_sum_stat q).1) ∧
      (to_uint64 q ≠ to_uint64 p →
        (m.deleted_pool p).per_pool_sum_deltas.find (to_uint64 q)
          = m.per_pool_sum_deltas.find (to_uint64 q) ∧
        (m.deleted_pool p).per_pool_sum_deltas_stamps.find (to_uint64 q)
          = m.per_pool_sum_deltas_stamps.find (to_uint64 q) ∧
        (m.deleted_pool p).per_pool_sum_delta.find (to_uint64 q)
          = m.per_pool_sum_delta.find (to_uint64 q)) := by
  constructor
  · intro h
    rw [get_pg_pool_sum_stat_fst, get_pg_pool_sum_stat_fst]
    show ((m.pg_pool_sum.erase (to_int p)).find (to_int q)).getD _ = _
    rw [cmap.find_erase_ne _ _ _ h]
  · intro h
    exact ⟨cmap.find_erase_ne _ _ _ h, cmap.find_erase_ne _ _ _ h, cmap.find_erase_ne _ _ _ h⟩

/-- C18, the code at the failing input.  The pool ids 1 and 4294967297 (1 + 2^32) are
distinct values of `int64_t`, and both convert to the key 1 of `pg_pool_sum`, which is
keyed by `int`: in the map with pools 1 and 2, `get_pg_pool_sum_stat(4294967297)` returns
the sum (3, 100, 1) of pool 1, and after `deleted_pool(1)` it returns the zero-valued
sum.  Symmetrically `deleted_pool(4294967297)` erases the sum of pool 1. -/
theorem deleted_pool_aliases_pool_ids :
    (1 : Int) ≠ 4294967297 ∧ (-2 ^ 63 : Int) ≤ 4294967297 ∧ (4294967297 : Int) < 2 ^ 63 ∧
      to_int 4294967297 = 1 ∧
      (two_pool_map.get_pg_pool_sum_stat 4294967297).1 = ⟨3, 100, 1⟩ ∧
      ((two_pool_map.deleted_pool 1).get_pg_pool_sum_stat 4294967297).1
        = pool_stat_t.default ∧
      (two_pool_map.get_pg_pool_sum_stat 1).1 = ⟨3, 100, 1⟩ ∧
      ((two_pool_map.deleted_pool 4294967297).get_pg_pool_sum_stat 1).1
        = pool_stat_t.default := by
  decide

end pool_id_claims

/-! ## Sequences of `update_stat` and `rm_stat` -/

section update_rm_claims

open PGMap.Incremental BuilderOp

theorem same_keys_assign (inc : PGMap.Incremental) (o : Int) (e : epoch_t) (s : osd_stat_t)
    (h : inc.same_keys) :
    ({ inc with
      osd_stat_updates := inc.osd_stat_updates.assign o s
      osd_epochs := inc.osd_epochs.assign o e } : PGMap.Incremental).same_keys := by
  intro k
  show k ∈ (inc.osd_epochs.assign o e).keys ↔ k ∈ (inc.osd_stat_updates.assign o s).keys
  rw [cmap.mem_keys_assign, cmap.mem_keys_assign, h k]

theorem same_keys_rm_stat (inc : PGMap.Incremental) (o : Int) (h : inc.same_keys) :
    (inc.rm_stat o).same_keys := by
  intro k
  show k ∈ (inc.osd_epochs.erase o).keys ↔ k ∈ (inc.osd_stat_updates.erase o).keys
  rw [cmap.mem_keys_erase, cmap.mem_keys_erase, h k]

theorem only_update_rm_take (ops : List BuilderOp) (h : only_update_rm ops) :
    ∀ n : Nat, only_update_rm (ops.take n) := by
  induction ops with
  | nil =>
    intro n
    simp [only_update_rm]
  | cons op rest ih =>
    intro n
    cases n with
    | zero => simp [only_update_rm]
    | succ n =>
      cases op with
      | update_stat osd epoch stat => exact ih h n
      | rm_stat osd => exact ih h n
      | stat_osd_out osd => exact absurd h (by simp [only_update_rm])
      | stat_osd_down_up osd pg_map => exact absurd h (by simp [only_update_rm])

theorem run_ops_update_rm (o : Int) (ops : List BuilderOp) :
    ∀ (inc : PGMap.Incremental) (acc : Option (osd_stat_t × epoch_t)),
      inc.same_keys → only_update_rm ops →
      inc.osd_stat_updates.find o = acc.map Prod.fst →
      inc.osd_epochs.find o = acc.map Prod.snd →
      ∃ inc1, run_ops ops inc = some inc1 ∧ inc1.same_keys ∧
        inc1.osd_stat_updates.find o = (ops.foldl (report_step o) acc).map Prod.fst ∧
        inc1.osd_epochs.find o = (ops.foldl (report_step o) acc).map Prod.snd := by
  induction ops with
  | nil =>
    intro inc acc hk _ h1 h2
    exact ⟨inc, rfl, hk, h1, h2⟩
  | cons op rest ih =>
    intro inc acc hk hops h1 h2
    cases op with
    | update_stat osd epoch stat =>
      have hrun : run_ops (update_stat osd epoch stat :: rest) inc
          = run_ops rest { inc with
              osd_stat_updates := inc.osd_stat_updates.assign osd stat
              osd_epochs := inc.osd_epochs.assign osd epoch } := by
        simp only [run_ops, BuilderOp.apply, update_stat_of_same_keys inc osd epoch stat hk]
      rw [hrun, List.foldl_cons]
      apply ih _ _ (same_keys_assign inc osd epoch stat hk) hops
      · show (inc.osd_stat_updates.assign osd stat).find o = _
        by_cases c : osd = o
        · subst c
          simp [report_step, cmap.find_assign_self]
        · rw [cmap.find_assign_ne _ _ _ _ (Ne.symm c), h1]
          simp [report_step, c]
      · show (inc.osd_epochs.assign osd epoch).find o = _
        by_cases c : osd = o
        · subst c
          simp [report_step, cmap.find_assign_self]
        · rw [cmap.find_assign_ne _ _ _ _ (Ne.symm c), h2]
          simp [report_step, c]
    | rm_stat osd =>
      have hrun : run_ops (rm_stat osd :: rest) inc = run_ops rest (inc.rm_stat osd) := by
        simp only [run_ops, BuilderOp.apply]
      rw [hrun, List.foldl_cons]
      apply ih _ _ (same_keys_rm_stat inc osd hk) hops
      · show (inc.osd_stat_updates.erase osd).find o = _
        by_cases c : osd = o
        · subst c
          simp [report_step, cmap.find_erase_self]
        · rw [cmap.find_erase_ne _ _ _ (Ne.symm c), h1]
          simp [report_step, c]
      · show (inc.osd_epochs.erase osd).find o = _
        by_cases c : osd = o
        · subst c
          simp [report_step, cmap.find_erase_self]
        · rw [cmap.find_erase_ne _ _ _ (Ne.symm c), h2]
          simp [report_step, c]
    | stat_osd_out osd => exact absurd hops (by simp [only_update_rm])
    | stat_osd_down_up osd pg_map => exact absurd hops (by simp [only_update_rm])

theorem same_keys_init : PGMap.Incremental.init.same_keys := by
  intro k
  simp [PGMap.Incremental.init, cmap.empty, cmap.keys, lkeys]

/-- C19.  For every sequence made only of `update_stat` and `rm_stat` calls applied to a
freshly constructed builder, after every step (every prefix of the sequence) the calls
have run without an assertion failure, `osd_epochs` and `osd_stat_updates` have exactly
the same key set and the same size, and for every osd `o` the pending stat and epoch are
those of the last `update_stat(o, e, s)` that no `rm_stat(o)` follows, `o` having no
entry in either map when there is no such call. -/
theorem update_rm_sequence_spec (ops : List BuilderOp) (hops : only_update_rm ops)
    (n : Nat) :
    ∃ inc, run_ops (ops.take n) PGMap.Incremental.init = some inc ∧
      (∀ k : Int, k ∈ inc.osd_epochs.keys ↔ k ∈ inc.osd_stat_updates.keys) ∧
      inc.osd_epochs.size = inc.osd_stat_updates.size ∧
      ∀ o : Int,
        inc.osd_stat_updates.find o = (last_report o (ops.take n)).map Prod.fst ∧
        inc.osd_epochs.find o = (last_report o (ops.take n)).map Prod.snd := by
  have hpre := only_update_rm_take ops hops n
  obtain ⟨inc, hrun, hkeys, _, _⟩ :=
    run_ops_update_rm 0 (ops.take n) PGMap.Incremental.init none same_keys_init hpre rfl rfl
  refine ⟨inc, hrun, hkeys, cmap.size_eq_of_same_keys _ _ hkeys, ?_⟩
  intro o
  obtain ⟨inc2, hrun2, _, h1, h2⟩ :=
    run_ops_update_rm o (ops.take n) PGMap.Incremental.init none same_keys_init hpre rfl rfl
  have e : inc = inc2 := Option.some.inj (hrun.symm.trans hrun2)
  subst e
  exact ⟨h1, h2⟩

/-- C19 at a concrete sequence: update_stat(1, 5, a), update_stat(2, 6, b), rm_stat(1),
update_stat(2, 7, c), update_stat(1, 4, d); after all five steps osd 1 holds (d, 4) and
osd 2 holds (c, 7); after the first three steps osd 1 holds nothing. -/
theorem update_rm_sequence_spec_witness :
    last_report 1 ([update_stat 1 5 ⟨10, 1, []⟩, update_stat 2 6 ⟨20, 2, []⟩, rm_stat 1,
        update_stat 2 7 ⟨30, 3, []⟩, update_stat 1 4 ⟨40, 4, []⟩].take 5)
        = some (⟨40, 4, []⟩, 4) ∧
      last_report 2 ([update_stat 1 5 ⟨10, 1, []⟩, update_stat 2 6 ⟨20, 2, []⟩, rm_stat 1,
        update_stat 2 7 ⟨30, 3, []⟩, update_stat 1 4 ⟨40, 4, []⟩].take 5)
        = some (⟨30, 3, []⟩, 7) ∧
      last_report 1 ([update_stat 1 5 ⟨10, 1, []⟩, update_stat 2 6 ⟨20, 2, []⟩, rm_stat 1,
        update_stat 2 7 ⟨30, 3, []⟩, update_stat 1 4 ⟨40, 4, []⟩].take 3) = none ∧
      ∃ inc, run_ops ([update_stat 1 5 ⟨10, 1, []⟩, update_stat 2 6 ⟨20, 2, []⟩, rm_stat 1,
          update_stat 2 7 ⟨30, 3, []⟩, update_stat 1 4 ⟨40, 4, []⟩].take 5)
          PGMap.Incremental.init = some inc ∧
        (∀ k : Int, k ∈ inc.osd_epochs.keys ↔ k ∈ inc.osd_stat_updates.keys) ∧
        inc.osd_epochs.size = inc.osd_stat_updates.size ∧
        ∀ o : Int,
          inc.osd_stat_updates.find o = (last_report o
            ([update_stat 1 5 ⟨10, 1, []⟩, update_stat 2 6 ⟨20, 2, []⟩, rm_stat 1,
              update_stat 2 7 ⟨30, 3, []⟩, update_stat 1 4 ⟨40, 4, []⟩].take 5)).map
              Prod.fst ∧
          inc.osd_epochs.find o = (last_report o
            ([update_stat 1 5 ⟨10, 1, []⟩, update_stat 2 6 ⟨20, 2, []⟩, rm_stat 1,
              update_stat 2 7 ⟨30, 3, []⟩, update_stat 1 4 ⟨40, 4, []⟩].take 5)).map
              Prod.snd :=
  ⟨by decide, by decide, by decide,
    update_rm_sequence_spec
      [update_stat 1 5 ⟨10, 1, []⟩, update_stat 2 6 ⟨20, 2, []⟩, rm_stat 1,
        update_stat 2 7 ⟨30, 3, []⟩, update_stat 1 4 ⟨40, 4, []⟩]
      (by simp [only_update_rm]) 5⟩

end update_rm_claims

/-! ## The lazy minimum -/

section lazy_minimum_claims

/-- C20.  For every map, `calc_min_last_epoch_clean` being a function of the map that
does not depend on the cache member: two consecutive calls of `get_min_last_epoch_clean`
return the same value, and the second call leaves the map exactly as the first call left
it. -/
theorem get_min_last_epoch_clean_stable (calc_mlec : PGMap → epoch_t)
    (hind : ∀ (s : PGMap) (c : epoch_t),
      calc_mlec { s with min_last_epoch_clean := c } = calc_mlec s)
    (m : PGMap) :
    ((m.get_min_last_epoch_clean calc_mlec).2.get_min_last_epoch_clean calc_mlec).1
        = (m.get_min_last_epoch_clean calc_mlec).1 ∧
      ((m.get_min_last_epoch_clean calc_mlec).2.get_min_last_epoch_clean calc_mlec).2
        = (m.get_min_last_epoch_clean calc_mlec).2 := by
  by_cases h : m.min_last_epoch_clean = 0
  · have h1 : m.get_min_last_epoch_clean calc_mlec
        = (calc_mlec m, { m with min_last_epoch_clean := calc_mlec m }) := by
      unfold PGMap.get_min_last_epoch_clean
      rw [if_pos h]
    rw [h1]
    by_cases hc : calc_mlec m = 0
    · unfold PGMap.get_min_last_epoch_clean
      simp only
      rw [if_pos hc, hind, hc]
      exact ⟨rfl, rfl⟩
    · unfold PGMap.get_min_last_epoch_clean
      simp only
      rw [if_neg hc]
      exact ⟨rfl, rfl⟩
  · have h1 : m.get_min_last_epoch_clean calc_mlec = (m.min_last_epoch_clean, m) := by
      unfold PGMap.get_min_last_epoch_clean
      rw [if_neg h]
    rw [h1]
    simp only
    rw [h1]
    exact ⟨rfl, rfl⟩

/-- C20 at a concrete input, with the minimum of section 4.3a for
`calc_min_last_epoch_clean`: on the map with pools 1 and 2 and no PG record the first call
computes the sentinel 0, and the second call returns 0 again and leaves the map as the
first call left it. -/
theorem get_min_last_epoch_clean_stable_witness :
    (two_pool_map.get_min_last_epoch_clean PGMap.calc_min_last_epoch_clean).1 = 0 ∧
      ((two_pool_map.get_min_last_epoch_clean
          PGMap.calc_min_last_epoch_clean).2.get_min_last_epoch_clean
        PGMap.calc_min_last_epoch_clean).1
        = (two_pool_map.get_min_last_epoch_clean PGMap.calc_min_last_epoch_clean).1 ∧
      ((two_pool_map.get_min_last_epoch_clean
          PGMap.calc_min_last_epoch_clean).2.get_min_last_epoch_clean
        PGMap.calc_min_last_epoch_clean).2
        = (two_pool_map.get_min_last_epoch_clean PGMap.calc_min_last_epoch_clean).2 :=
  ⟨by decide,
    get_min_last_epoch_clean_stable PGMap.calc_min_last_epoch_clean (fun _ _ => rfl)
      two_pool_map⟩

end lazy_minimum_claims

end Ceph
